import Mathlib

/-!
Verification of the Mars robot simulation and its pathfinding/mission
planning layer.  The definitions below are a shallow embedding of the
JavaScript sources: `Robot.js` (command execution state machine),
`SimulationService.js` (input validation and the `runSimulation` entry
point) and `PathfindingService` (battery-aware A* search and the mission
planner).  Execution functions are fueled: every recursive call consumes
one unit of fuel and `none` means the fuel ran out, never an answer.
-/

namespace MarsRobot

/-- Terrain cell types, from the alphabet {Fe, Se, W, Si, Zn, Obs}. -/
inductive Cell where
  | Fe | Se | W | Si | Zn | Obs
deriving DecidableEq, Repr

/-- Facing directions of the robot. -/
inductive Dir where
  | North | South | East | West
deriving DecidableEq, Repr

/-- Commands: forward, backward, left, right, sample, extend solar panels. -/
inductive Cmd where
  | F | B | L | R | S | E
deriving DecidableEq, Repr

/-- A terrain is a list of rows of cells (row-major, indexed `terrain[y][x]`). -/
abbrev Terrain := List (List Cell)

/-- State of the robot as held by the `Robot` class: terrain, battery,
position `(x, y)` with facing, visited cells in first-visit order, collected
samples in collection order, and the round-robin backoff strategy index. -/
structure RobotState where
  terrain : Terrain
  battery : Int
  x : Int
  y : Int
  facing : Dir
  visitedCells : List (Int × Int)
  samplesCollected : List Cell
  currentBackoffStrategy : Nat
deriving DecidableEq, Repr

/-- The seven fixed backoff strategies of `Robot.js`, in order. -/
def backoffStrategies : List (List Cmd) :=
  [[.E, .R, .F],
   [.E, .L, .F],
   [.E, .L, .L, .F],
   [.E, .B, .R, .F],
   [.E, .B, .B, .L, .F],
   [.E, .F, .F],
   [.E, .F, .L, .F, .L, .F]]

/-- `Robot.getBatteryConsumption`: fixed battery cost of each command. -/
def getBatteryConsumption : Cmd → Int
  | .F | .B => 3
  | .L | .R => 2
  | .S => 8
  | .E => 1

/-- `Robot.getNextPosition`: destination cell of a forward/backward move,
orientation-relative; the facing itself is unchanged by moves. -/
def getNextPosition (x y : Int) (facing : Dir) (c : Cmd) : Int × Int :=
  let direction : Int := if c = .F then 1 else -1
  match facing with
  | .North => (x, y - direction)
  | .South => (x, y + direction)
  | .East => (x + direction, y)
  | .West => (x - direction, y)

/-- Number of rows of the terrain (`this.terrain.length`). -/
def terrainRows (t : Terrain) : Int := (t.length : Int)

/-- Number of columns of the terrain (`this.terrain[0].length`). -/
def terrainCols (t : Terrain) : Int := ((t.headD []).length : Int)

/-- Cell lookup `this.terrain[y][x]`, `none` when the access is undefined. -/
def cellAt (t : Terrain) (x y : Int) : Option Cell :=
  if 0 ≤ y ∧ 0 ≤ x then (t.get? y.toNat).bind (fun row => row.get? x.toNat)
  else none

/-- `Robot.isObstacle`: true when out of bounds (per row 0's length) or the
cell is `Obs`. -/
def isObstacle (t : Terrain) (x y : Int) : Bool :=
  if y < 0 ∨ terrainRows t ≤ y ∨ x < 0 ∨ terrainCols t ≤ x then true
  else cellAt t x y = some Cell.Obs

/-- `Robot.getTerrainType`: the cell type, or `none` when out of bounds. -/
def getTerrainType (t : Terrain) (x y : Int) : Option Cell :=
  if y < 0 ∨ terrainRows t ≤ y ∨ x < 0 ∨ terrainCols t ≤ x then none
  else cellAt t x y

/-- `Robot.addVisitedCell`: append the cell unless already present. -/
def addVisitedCell (visited : List (Int × Int)) (x y : Int) : List (Int × Int) :=
  if visited.any (fun cell => cell.1 == x && cell.2 == y) then visited
  else visited ++ [(x, y)]

/-- `Robot.turnLeft` facing table. -/
def turnLeftDir : Dir → Dir
  | .North => .West
  | .West => .South
  | .South => .East
  | .East => .North

/-- `Robot.turnRight` facing table. -/
def turnRightDir : Dir → Dir
  | .North => .East
  | .East => .South
  | .South => .West
  | .West => .North

mutual

/-- `Robot.executeCommand`: check the battery (substituting `E` when it is
too low but at least 1), then dispatch.  Returns `some (success, state)`;
`none` only when the fuel runs out. -/
def executeCommand (fuel : Nat) (s : RobotState) (c : Cmd) :
    Option (Bool × RobotState) :=
  match fuel with
  | 0 => none
  | fuel' + 1 =>
    let batteryNeeded := getBatteryConsumption c
    if s.battery < batteryNeeded then
      if 1 ≤ s.battery then executeCommand fuel' s .E
      else some (false, s)
    else
      match c with
      | .F => moveCommand fuel' s .F
      | .B => moveCommand fuel' s .B
      | .L => some (true, { s with battery := s.battery - 2,
                                   facing := turnLeftDir s.facing })
      | .R => some (true, { s with battery := s.battery - 2,
                                   facing := turnRightDir s.facing })
      | .S =>
        let s' := { s with battery := s.battery - 8 }
        match getTerrainType s.terrain s.x s.y with
        | some ty =>
          if ty ≠ Cell.Obs then
            some (true, { s' with samplesCollected := s'.samplesCollected ++ [ty] })
          else some (true, s')
        | none => some (true, s')
      | .E => some (true, { s with battery := s.battery - 1 + 10 })

/-- `Robot.moveForward` / `Robot.moveBackward` (merged, as the two methods
are identical except for the displacement direction): blocked moves pay
nothing and invoke the backoff controller; free moves pay 3, update the
position, record the visit and reset the backoff index. -/
def moveCommand (fuel : Nat) (s : RobotState) (c : Cmd) :
    Option (Bool × RobotState) :=
  match fuel with
  | 0 => none
  | fuel' + 1 =>
    let next := getNextPosition s.x s.y s.facing c
    if isObstacle s.terrain next.1 next.2 then applyBackoffStrategy fuel' s
    else
      some (true, { s with battery := s.battery - 3,
                           x := next.1, y := next.2,
                           visitedCells := addVisitedCell s.visitedCells next.1 next.2,
                           currentBackoffStrategy := 0 })

/-- `Robot.applyBackoffStrategy`: fail when the 7 strategies are exhausted;
otherwise take the current strategy, advance the index, and run the
strategy's commands in order. -/
def applyBackoffStrategy (fuel : Nat) (s : RobotState) :
    Option (Bool × RobotState) :=
  match fuel with
  | 0 => none
  | fuel' + 1 =>
    if backoffStrategies.length ≤ s.currentBackoffStrategy then some (false, s)
    else
      executeStrategy fuel'
        (backoffStrategies.getD s.currentBackoffStrategy [])
        { s with currentBackoffStrategy := s.currentBackoffStrategy + 1 }

/-- The command loop inside `applyBackoffStrategy`: run each command,
stopping with failure as soon as one fails. -/
def executeStrategy (fuel : Nat) (cmds : List Cmd) (s : RobotState) :
    Option (Bool × RobotState) :=
  match fuel with
  | 0 => none
  | fuel' + 1 =>
    match cmds with
    | [] => some (true, s)
    | c :: rest =>
      match executeCommand fuel' s c with
      | none => none
      | some (true, s') => executeStrategy fuel' rest s'
      | some (false, s') => some (false, s')

end

/-- Snapshot of a finished run (`Robot.getResult`): field names follow the
wire contract `VisitedCells`, `SamplesCollected`, `Battery`,
`FinalPosition.Location.{X,Y}`, `FinalPosition.Facing`. -/
structure SimResult where
  VisitedCells : List (Int × Int)
  SamplesCollected : List Cell
  Battery : Int
  FinalX : Int
  FinalY : Int
  FinalFacing : Dir
deriving DecidableEq, Repr

/-- `Robot.getResult`. -/
def getResult (s : RobotState) : SimResult :=
  ⟨s.visitedCells, s.samplesCollected, s.battery, s.x, s.y, s.facing⟩

/-- `Robot.executeCommands`: run the sequence, break on the first failing
command, and return the snapshot of whatever was reached. -/
def executeCommands (fuel : Nat) (s : RobotState) : List Cmd → Option SimResult
  | [] => some (getResult s)
  | c :: rest =>
    match executeCommand fuel s c with
    | none => none
    | some (true, s') => executeCommands fuel s' rest
    | some (false, s') => some (getResult s')

/-- The `Robot` constructor: fresh robot at the given pose. -/
def initRobot (t : Terrain) (battery : Int) (x y : Int) (facing : Dir) :
    RobotState :=
  ⟨t, battery, x, y, facing, [(x, y)], [], 0⟩

/-! ## SimulationService -/

/-- Raw simulation input as received by `SimulationService.runSimulation`:
commands and the facing are raw strings, so that the validation of the
command alphabet and of the orientation can be expressed. -/
structure SimInput where
  terrain : Terrain
  battery : Int
  commands : List String
  posX : Int
  posY : Int
  facing : String
deriving DecidableEq, Repr

/-- The valid command symbols of `SimulationService.validateInput`. -/
def validCommands : List String := ["F", "B", "L", "R", "S", "E"]

/-- The valid facing names of `SimulationService.validateInput`. -/
def facingNames : List String := ["North", "South", "East", "West"]

/-- Parse one command symbol (the dispatch alphabet of `executeCommand`). -/
def parseCmd : String → Option Cmd
  | "F" => some .F
  | "B" => some .B
  | "L" => some .L
  | "R" => some .R
  | "S" => some .S
  | "E" => some .E
  | _ => none

/-- Parse a facing name. -/
def parseFacing : String → Option Dir
  | "North" => some .North
  | "South" => some .South
  | "East" => some .East
  | "West" => some .West
  | _ => none

/-- `SimulationService.validateInput`, with the checks in source order.
Checks that only concern dynamic typing (missing fields, non-numeric
values) are not representable in the typed embedding. -/
def validateInput (input : SimInput) : Except String Unit :=
  if input.terrain = [] then
    Except.error "Terrain must be a non-empty 2D array"
  else if (input.terrain.headD []).length = 0 ∨
      ∃ row ∈ input.terrain, row.length ≠ (input.terrain.headD []).length then
    Except.error "Terrain must be a valid 2D array with consistent row lengths"
  else if input.battery < 0 then
    Except.error "Battery must be a non-negative number"
  else if input.commands = [] then
    Except.error "Commands must be a non-empty array"
  else if ∃ c ∈ input.commands, c ∉ validCommands then
    Except.error "Commands must be one of: F, B, L, R, S, E"
  else if input.facing ∉ facingNames then
    Except.error "Initial position must have a valid facing direction"
  else if input.posY < 0 ∨ terrainRows input.terrain ≤ input.posY ∨
      input.posX < 0 ∨ terrainCols input.terrain ≤ input.posX then
    Except.error "Initial position is out of terrain bounds"
  else if cellAt input.terrain input.posX input.posY = some Cell.Obs then
    Except.error "Initial position cannot be an obstacle"
  else Except.ok ()

/-- Parse every command symbol; `none` as soon as one is unknown
(mirroring the `Unknown command` throw of `Robot.executeCommand`). -/
def parseCommandList : List String → Option (List Cmd)
  | [] => some []
  | c :: rest =>
    match parseCmd c, parseCommandList rest with
    | some cmd, some cmds => some (cmd :: cmds)
    | _, _ => none

/-- `SimulationService.runSimulation`: validate, build the robot, execute.
The outer `Option` is fuel exhaustion; the `Except` layer holds the raised
error (validation errors, or the unknown-command / unknown-facing throws
that validation makes unreachable). -/
def runSimulation (fuel : Nat) (input : SimInput) :
    Option (Except String SimResult) :=
  match validateInput input with
  | Except.error e => some (Except.error e)
  | Except.ok () =>
    match parseCommandList input.commands with
    | none => some (Except.error "Unknown command")
    | some cmds =>
      match parseFacing input.facing with
      | none => some (Except.error "Unknown facing")
      | some d =>
        match executeCommands fuel
            (initRobot input.terrain input.battery input.posX input.posY d)
            cmds with
        | none => none
        | some res => some (Except.ok res)

/-- The conditions under which, according to the specification, the input
is malformed and `runSimulation` must fail with a validation error. -/
def SpecMalformed (input : SimInput) : Prop :=
  input.terrain = [] ∨
  ((input.terrain.headD []).length = 0 ∨
    ∃ row ∈ input.terrain, row.length ≠ (input.terrain.headD []).length) ∨
  input.battery < 0 ∨
  input.commands = [] ∨
  (∃ c ∈ input.commands, c ∉ validCommands) ∨
  input.facing ∉ facingNames ∨
  (input.posY < 0 ∨ terrainRows input.terrain ≤ input.posY ∨
    input.posX < 0 ∨ terrainCols input.terrain ≤ input.posX) ∨
  cellAt input.terrain input.posX input.posY = some Cell.Obs

instance (input : SimInput) : Decidable (SpecMalformed input) := by
  unfold SpecMalformed; infer_instance

/-! ## PathfindingService -/

/-- A node of the search graph: position plus orientation. -/
structure Pose where
  x : Int
  y : Int
  facing : Dir
deriving DecidableEq, Repr

/-- `PathfindingService.commandCosts`, verbatim (`E` carries `-9`; the
other entries are the positive fixed costs).  `findPath` ADDS these values
to the accumulated battery. -/
def commandCosts : Cmd → Int
  | .F => 3
  | .B => 3
  | .L => 2
  | .R => 2
  | .S => 8
  | .E => -9

/-- `PathfindingService.manhattanDistance`. -/
def manhattanDistance (ax ay bx by' : Int) : Nat :=
  (ax - bx).natAbs + (ay - by').natAbs

/-- The `directions` array of `PathfindingService.getNewFacing`. -/
def dirCycle : List Dir := [.North, .East, .South, .West]

/-- Index of a facing in the `directions` array. -/
def dirIndex : Dir → Nat
  | .North => 0
  | .East => 1
  | .South => 2
  | .West => 3

/-- `PathfindingService.getNewFacing`: rotate via the cyclic index. -/
def getNewFacing (facing : Dir) (c : Cmd) : Dir :=
  if c = .L then dirCycle.getD ((dirIndex facing + 3) % 4) facing
  else if c = .R then dirCycle.getD ((dirIndex facing + 1) % 4) facing
  else facing

/-- `PathfindingService.getPossibleMoves`: turns always, moves when the
destination is not an obstacle, and the ExtendPanels self-loop. -/
def getPossibleMoves (t : Terrain) (p : Pose) : List (Pose × Cmd) :=
  [(⟨p.x, p.y, getNewFacing p.facing .L⟩, Cmd.L),
   (⟨p.x, p.y, getNewFacing p.facing .R⟩, Cmd.R)] ++
  (let fwd := getNextPosition p.x p.y p.facing .F
   if isObstacle t fwd.1 fwd.2 then [] else [(⟨fwd.1, fwd.2, p.facing⟩, Cmd.F)]) ++
  (let bwd := getNextPosition p.x p.y p.facing .B
   if isObstacle t bwd.1 bwd.2 then [] else [(⟨bwd.1, bwd.2, p.facing⟩, Cmd.B)]) ++
  [(p, Cmd.E)]

/-- Association-list lookup (first match), modelling `Map.get`. -/
def alistLookup {α : Type} : List (Pose × α) → Pose → Option α
  | [], _ => none
  | (k, v) :: rest, key => if k = key then some v else alistLookup rest key

/-- `Map.get` with the behaviour the service relies on at present keys. -/
def alistGetD {α : Type} (m : List (Pose × α)) (key : Pose) (dflt : α) : α :=
  (alistLookup m key).getD dflt

/-- `Map.set`: replace in place when present, else append. -/
def alistSet {α : Type} : List (Pose × α) → Pose → α → List (Pose × α)
  | [], key, v => [(key, v)]
  | (k, w) :: rest, key, v =>
    if k = key then (key, v) :: rest else (k, w) :: alistSet rest key v

/-- `Map.delete`: remove the entry for the key, if any. -/
def alistDelete {α : Type} : List (Pose × α) → Pose → List (Pose × α)
  | [], _ => []
  | (k, w) :: rest, key =>
    if k = key then rest else (k, w) :: alistDelete rest key

/-- Stable insertion of `x` into `l`: `x` goes before the first element it
compares `le` to, hence after earlier elements with an equal key. -/
def insertSorted {α : Type} (le : α → α → Bool) (x : α) : List α → List α
  | [] => [x]
  | y :: ys => if le x y then x :: y :: ys else y :: insertSorted le x ys

/-- Stable ascending sort, modelling `Array.prototype.sort` (which is
required to be stable) with an ascending comparator. -/
def stableSortBy {α : Type} (le : α → α → Bool) : List α → List α
  | [] => []
  | x :: xs => insertSorted le x (stableSortBy le xs)

/-- The priority queue of the service: an element list kept sorted by the
priorities map. -/
structure PQueue where
  elements : List Pose
  priorities : List (Pose × Nat)
deriving Repr

/-- `PriorityQueue.enqueue`: push, record the priority, re-sort. -/
def pqEnqueue (q : PQueue) (el : Pose) (pr : Nat) : PQueue :=
  let priorities' := alistSet q.priorities el pr
  ⟨stableSortBy (fun a b => alistGetD priorities' a 0 ≤ alistGetD priorities' b 0)
      (q.elements ++ [el]),
   priorities'⟩

/-- `PriorityQueue.contains`. -/
def pqContains (q : PQueue) (el : Pose) : Bool :=
  (alistLookup q.priorities el).isSome

/-- The mutable search state of one `findPath` call. -/
structure AStarState where
  queue : PQueue
  closed : List Pose
  cameFrom : List (Pose × (Pose × Cmd))
  gScore : List (Pose × Nat)
  fScore : List (Pose × Nat)
  batteryLevels : List (Pose × Int)
  commandSequences : List (Pose × List Cmd)

/-- The result record `{commands, battery, success}` of the service. -/
structure PathResult where
  commands : List Cmd
  battery : Int
  success : Bool
deriving DecidableEq, Repr

/-- The body of the neighbour loop of `findPath`, for one possible move:
skip closed neighbours, skip neighbours whose accumulated battery (current
battery PLUS the command's cost entry, as in the source) would be `≤ 0`,
and relax on a strictly better g-score, enqueueing newly seen nodes. -/
def relaxMove (target : Int × Int) (current : Pose) (move : Pose × Cmd)
    (st : AStarState) : AStarState :=
  let neighbor := move.1
  let command := move.2
  if neighbor ∈ st.closed then st
  else
    let batteryCost := commandCosts command
    let currentBattery := alistGetD st.batteryLevels current 0
    let newBattery := currentBattery + batteryCost
    if newBattery ≤ 0 then st
    else
      let tentativeG := alistGetD st.gScore current 0 + 1
      let better :=
        match alistLookup st.gScore neighbor with
        | none => true
        | some g => tentativeG < g
      if better then
        let newCommands := alistGetD st.commandSequences current [] ++ [command]
        let fNew := tentativeG +
          manhattanDistance neighbor.x neighbor.y target.1 target.2
        let st' : AStarState :=
          { st with
            cameFrom := alistSet st.cameFrom neighbor (current, command),
            gScore := alistSet st.gScore neighbor tentativeG,
            fScore := alistSet st.fScore neighbor fNew,
            batteryLevels := alistSet st.batteryLevels neighbor newBattery,
            commandSequences := alistSet st.commandSequences neighbor newCommands }
        if pqContains st'.queue neighbor then st'
        else { st' with queue := pqEnqueue st'.queue neighbor fNew }
      else st

/-- The `while (!openSet.isEmpty())` loop of `findPath`. -/
def astarLoop (fuel : Nat) (t : Terrain) (target : Int × Int) (b0 : Int)
    (st : AStarState) : Option PathResult :=
  match fuel with
  | 0 => none
  | fuel' + 1 =>
    match st.queue.elements with
    | [] => some ⟨[], b0, false⟩
    | current :: restElems =>
      let st1 : AStarState :=
        { st with queue := ⟨restElems, alistDelete st.queue.priorities current⟩ }
      if current.x = target.1 ∧ current.y = target.2 then
        some ⟨alistGetD st1.commandSequences current [],
              alistGetD st1.batteryLevels current 0, true⟩
      else
        let st2 : AStarState := { st1 with closed := current :: st1.closed }
        let st3 := (getPossibleMoves t current).foldl
          (fun acc mv => relaxMove target current mv acc) st2
        astarLoop fuel' t target b0 st3

/-- `PathfindingService.findPath`: initialise the bookkeeping at the start
pose and run the A* loop. -/
def findPath (fuel : Nat) (t : Terrain) (start : Pose) (target : Int × Int)
    (initialBattery : Int) : Option PathResult :=
  let h0 := manhattanDistance start.x start.y target.1 target.2
  astarLoop fuel t target initialBattery
    { queue := pqEnqueue ⟨[], []⟩ start h0,
      closed := [],
      cameFrom := [],
      gScore := [(start, 0)],
      fScore := [(start, h0)],
      batteryLevels := [(start, initialBattery)],
      commandSequences := [(start, [])] }

/-! ## Mission planner -/

/-- All coordinates `(x, y)` scanned in the `y` outer / `x` inner order of
the service's loops, with bounds `rows` and `cols = terrain[0].length`. -/
def allCoords (t : Terrain) : List (Int × Int) :=
  (List.range t.length).flatMap fun y =>
    (List.range (t.headD []).length).map fun x => ((x : Int), (y : Int))

/-- `PathfindingService.findTerrainLocations`: all positions whose cell is
(strictly) equal to the given type.  The type is an `Option Cell` because
the scan of `generateMissionPlan` reads cells of ragged rows as
`undefined` (`none`). -/
def findTerrainLocations (t : Terrain) (ty : Option Cell) : List (Int × Int) :=
  (allCoords t).filter fun lc => decide (cellAt t lc.1 lc.2 = ty)

/-- The distinct non-`Obs` terrain types, in first-occurrence scan order
(the insertion order of the `Set` in `generateMissionPlan`). -/
def distinctTerrainTypes (t : Terrain) : List (Option Cell) :=
  (allCoords t).foldl
    (fun acc lc =>
      let ty := cellAt t lc.1 lc.2
      if ty = some Cell.Obs then acc
      else if ty ∈ acc then acc else acc ++ [ty])
    []

/-- A target of the mission planner: a terrain type and its locations. -/
structure MPTarget where
  type : Option Cell
  locations : List (Int × Int)
deriving DecidableEq, Repr

/-- The unsorted target list built by `generateMissionPlan`. -/
def mkTargets (t : Terrain) : List MPTarget :=
  (distinctTerrainTypes t).filterMap fun ty =>
    let locs := findTerrainLocations t ty
    if locs = [] then none else some ⟨ty, locs⟩

/-- `Math.min` of the Manhattan distances from `start` to the locations
(`0` for an empty list, which the planner never passes). -/
def minDistTo (start : Pose) (locs : List (Int × Int)) : Nat :=
  match locs.map (fun lc => manhattanDistance start.x start.y lc.1 lc.2) with
  | [] => 0
  | d :: ds => ds.foldl Nat.min d

/-- The `targets.sort(...)` call of `generateMissionPlan`: stable ascending
sort by the minimal Manhattan distance from the INITIAL start pose. -/
def sortTargets (t : Terrain) (start : Pose) : List MPTarget :=
  stableSortBy
    (fun a b => decide (minDistTo start a.locations ≤ minDistTo start b.locations))
    (mkTargets t)

/-- The inner location loop of `generateMissionPlan`: run `findPath` to
every location of the target, keeping the first strictly shortest
successful result. -/
def pickBest (fuel : Nat) (t : Terrain) (pos : Pose) (bat : Int)
    (locs : List (Int × Int)) : Option (Option (PathResult × (Int × Int))) :=
  locs.foldl
    (fun acc loc =>
      match acc with
      | none => none
      | some best =>
        match findPath fuel t pos loc bat with
        | none => none
        | some path =>
          match best with
          | none => if path.success then some (some (path, loc)) else some best
          | some (bp, _) =>
            if path.success ∧ path.commands.length < bp.commands.length then
              some (some (path, loc))
            else some best)
    (some none)

/-- The target loop of `generateMissionPlan`: chain pathfinding legs and
sampling, with the stale-orientation position update of the source. -/
def missionLoop (fuel : Nat) (t : Terrain) :
    List MPTarget → Pose → Int → List Cmd → Option PathResult
  | [], _, bat, acc => some ⟨acc, bat, true⟩
  | tgt :: rest, pos, bat, acc =>
    match pickBest fuel t pos bat tgt.locations with
    | none => none
    | some none => some ⟨acc, bat, false⟩
    | some (some (path, loc)) =>
      let acc1 := acc ++ path.commands
      let bat1 := path.battery
      if 8 ≤ bat1 then
        missionLoop fuel t rest ⟨loc.1, loc.2, pos.facing⟩ (bat1 - 8) (acc1 ++ [.S])
      else if 1 ≤ bat1 then
        missionLoop fuel t rest ⟨loc.1, loc.2, pos.facing⟩ (bat1 + 9 - 8)
          (acc1 ++ [.E, .S])
      else some ⟨acc1, bat1, false⟩

/-- `PathfindingService.generateMissionPlan`. -/
def generateMissionPlan (fuel : Nat) (t : Terrain) (start : Pose) (b0 : Int) :
    Option PathResult :=
  missionLoop fuel t (sortTargets t start) start b0 []

/-! ## Specification-side definitions -/

/-- Modelled from the spec: the battery delta of each applied command per
sections 4.2 and 4.4 (Move −3, Turn −2, Sample −8, ExtendPanels net +9). -/
def specBatteryDelta : Cmd → Int
  | .F | .B => -3
  | .L | .R => -2
  | .S => -8
  | .E => 9

/-- Modelled from the spec: replay a command sequence from a battery level
under the spec's deltas, failing (`none`) as soon as the battery after an
applied command is not `> 0`. -/
def replayBattery (b : Int) : List Cmd → Option Int
  | [] => some b
  | c :: rest =>
    let b' := b + specBatteryDelta c
    if b' ≤ 0 then none else replayBattery b' rest

/-- Geometric effect of one command on a pose (turns rotate, moves
translate, Sample and ExtendPanels leave the pose unchanged), matching the
neighbour poses produced by `getPossibleMoves`. -/
def applyMovePose (p : Pose) : Cmd → Pose
  | .L => ⟨p.x, p.y, getNewFacing p.facing .L⟩
  | .R => ⟨p.x, p.y, getNewFacing p.facing .R⟩
  | .F =>
    let n := getNextPosition p.x p.y p.facing .F
    ⟨n.1, n.2, p.facing⟩
  | .B =>
    let n := getNextPosition p.x p.y p.facing .B
    ⟨n.1, n.2, p.facing⟩
  | .S => p
  | .E => p

/-- Pose reached after a command sequence. -/
def poseAfter (p : Pose) (cmds : List Cmd) : Pose :=
  cmds.foldl applyMovePose p

/-- A pose whose cell is inside the terrain bounds. -/
def inBoundsPose (t : Terrain) (p : Pose) : Prop :=
  0 ≤ p.x ∧ p.x < terrainCols t ∧ 0 ≤ p.y ∧ p.y < terrainRows t

/-- All in-bounds poses of a terrain (the finite node universe of the
search graph). -/
def allPoses (t : Terrain) : List Pose :=
  (List.range t.length).flatMap fun y =>
    (List.range (t.headD []).length).flatMap fun x =>
      [⟨(x : Int), (y : Int), .North⟩, ⟨(x : Int), (y : Int), .South⟩,
       ⟨(x : Int), (y : Int), .East⟩, ⟨(x : Int), (y : Int), .West⟩]

/-- The part of the A* search invariant that is preserved by each single
neighbour relaxation (the closed set is fixed during the neighbour
loop): queue elements are duplicate-free, open poses are not closed, the
priorities map has duplicate-free keys and holds exactly the queued
poses, every open or closed pose has g-score and battery entries, stored
batteries are positive, every pose with a g-score is open or closed, and
every open or closed pose is in bounds. -/
structure RelaxInv (t : Terrain) (st : AStarState) : Prop where
  nodupE : st.queue.elements.Nodup
  disj : ∀ p ∈ st.queue.elements, p ∉ st.closed
  prioNodup : st.queue.priorities.Pairwise (fun a b => a.1 ≠ b.1)
  prioIff : ∀ p : Pose,
    (alistLookup st.queue.priorities p).isSome ↔ p ∈ st.queue.elements
  present : ∀ p : Pose, p ∈ st.queue.elements ∨ p ∈ st.closed →
    (alistLookup st.gScore p).isSome ∧ (alistLookup st.batteryLevels p).isSome
  batPos : ∀ (p : Pose) (b : Int), alistLookup st.batteryLevels p = some b → 0 < b
  gKeys : ∀ p : Pose, (alistLookup st.gScore p).isSome →
    p ∈ st.queue.elements ∨ p ∈ st.closed
  bounds : ∀ p : Pose, p ∈ st.queue.elements ∨ p ∈ st.closed → inBoundsPose t p

/-- The full loop invariant of the A* search: the per-relaxation part,
plus: the closed list is duplicate-free, every neighbour of a closed pose
is closed or queued, no closed pose sits on the target cell, and the
start pose is queued or closed. -/
structure SearchInv (t : Terrain) (target : Int × Int) (start : Pose)
    (st : AStarState) : Prop where
  relax : RelaxInv t st
  nodupC : st.closed.Nodup
  cover : ∀ p ∈ st.closed, ∀ mv ∈ getPossibleMoves t p,
    mv.1 ∈ st.closed ∨ mv.1 ∈ st.queue.elements
  noTgt : ∀ p ∈ st.closed, ¬(p.x = target.1 ∧ p.y = target.2)
  startIn : start ∈ st.queue.elements ∨ start ∈ st.closed

/-! ## Basic unfolding and inversion lemmas for command execution -/

lemma executeCommand_succ (fuel : Nat) (s : RobotState) (c : Cmd) :
    executeCommand (fuel + 1) s c =
      (if s.battery < getBatteryConsumption c then
        if 1 ≤ s.battery then executeCommand fuel s .E
        else some (false, s)
      else
        match c with
        | .F => moveCommand fuel s .F
        | .B => moveCommand fuel s .B
        | .L => some (true, { s with battery := s.battery - 2,
                                     facing := turnLeftDir s.facing })
        | .R => some (true, { s with battery := s.battery - 2,
                                     facing := turnRightDir s.facing })
        | .S =>
          let s' := { s with battery := s.battery - 8 }
          match getTerrainType s.terrain s.x s.y with
          | some ty =>
            if ty ≠ Cell.Obs then
              some (true, { s' with samplesCollected := s'.samplesCollected ++ [ty] })
            else some (true, s')
          | none => some (true, s')
        | .E => some (true, { s with battery := s.battery - 1 + 10 })) := rfl

lemma moveCommand_succ (fuel : Nat) (s : RobotState) (c : Cmd) :
    moveCommand (fuel + 1) s c =
      (let next := getNextPosition s.x s.y s.facing c
      if isObstacle s.terrain next.1 next.2 then applyBackoffStrategy fuel s
      else
        some (true, { s with battery := s.battery - 3,
                             x := next.1, y := next.2,
                             visitedCells := addVisitedCell s.visitedCells next.1 next.2,
                             currentBackoffStrategy := 0 })) := rfl

lemma applyBackoffStrategy_succ (fuel : Nat) (s : RobotState) :
    applyBackoffStrategy (fuel + 1) s =
      (if backoffStrategies.length ≤ s.currentBackoffStrategy then some (false, s)
      else
        executeStrategy fuel (backoffStrategies.getD s.currentBackoffStrategy [])
          { s with currentBackoffStrategy := s.currentBackoffStrategy + 1 }) := rfl

/-- Executing `E` with at least one unit of battery always succeeds and
adds the net 9 units. -/
lemma executeCommand_E_inv (fuel : Nat) (s : RobotState) (r : Bool)
    (s' : RobotState) (h1 : 1 ≤ s.battery)
    (h : executeCommand fuel s .E = some (r, s')) :
    r = true ∧ s' = { s with battery := s.battery - 1 + 10 } := by
  cases fuel with
  | zero => simp [executeCommand] at h
  | succ f =>
    rw [executeCommand_succ] at h
    have h2 : ¬ s.battery < getBatteryConsumption .E := by
      simp [getBatteryConsumption]; omega
    simp [h2] at h
    exact ⟨h.1, h.2.symm⟩

/-- Executing a turn with at least 2 units of battery: exact effect. -/
lemma executeCommand_turn_inv (fuel : Nat) (s : RobotState) (c : Cmd)
    (r : Bool) (s' : RobotState) (hc : c = .L ∨ c = .R) (h2 : 2 ≤ s.battery)
    (h : executeCommand fuel s c = some (r, s')) :
    r = true ∧ s'.battery = s.battery - 2 ∧
      s'.currentBackoffStrategy = s.currentBackoffStrategy := by
  cases fuel with
  | zero => simp [executeCommand] at h
  | succ f =>
    rw [executeCommand_succ] at h
    have hlt : ¬ s.battery < getBatteryConsumption c := by
      rcases hc with rfl | rfl <;> simp [getBatteryConsumption] <;> omega
    simp [hlt] at h
    rcases hc with rfl | rfl <;> simp at h <;>
      obtain ⟨hr, hs⟩ := h <;> subst hs <;> exact ⟨hr, rfl, rfl⟩

/-- Commands other than moves never change the backoff index (substituted
`E`, turns, sampling and recharging all leave it untouched). -/
lemma executeCommand_idx_preserved (fuel : Nat) :
    ∀ (s : RobotState) (c : Cmd) (r : Bool) (s' : RobotState),
      (c = .L ∨ c = .R ∨ c = .S ∨ c = .E) →
      executeCommand fuel s c = some (r, s') →
      s'.currentBackoffStrategy = s.currentBackoffStrategy := by
  induction fuel with
  | zero => intro s c r s' _ h; simp [executeCommand] at h
  | succ f ihf =>
    intro s c r s' hc h
    rw [executeCommand_succ] at h
    by_cases hlt : s.battery < getBatteryConsumption c
    · simp [hlt] at h
      by_cases h1 : 1 ≤ s.battery
      · simp [h1] at h
        exact ihf s .E r s' (by simp) h
      · simp [h1] at h
        rw [← h.2]
    · simp [hlt] at h
      rcases hc with rfl | rfl | rfl | rfl
      · simp at h; rw [← h.2]
      · simp at h; rw [← h.2]
      · simp at h
        rcases hty : getTerrainType s.terrain s.x s.y with _ | ty <;>
          simp [hty] at h
        · rw [← h.2]
        · by_cases hobs : ty = Cell.Obs <;> simp [hobs] at h <;> rw [← h.2]
      · simp at h; rw [← h.2]

/-- Battery non-negativity is preserved by every layer of command
execution: the fixed cost is checked before dispatch, a blocked move pays
nothing, and the backoff layers only run `executeCommand` again. -/
lemma battery_master (fuel : Nat) :
    (∀ s c r s', 0 ≤ s.battery → executeCommand fuel s c = some (r, s') →
      0 ≤ s'.battery) ∧
    (∀ s c r s', 3 ≤ s.battery → moveCommand fuel s c = some (r, s') →
      0 ≤ s'.battery) ∧
    (∀ s r s', 0 ≤ s.battery → applyBackoffStrategy fuel s = some (r, s') →
      0 ≤ s'.battery) ∧
    (∀ cmds s r s', 0 ≤ s.battery → executeStrategy fuel cmds s = some (r, s') →
      0 ≤ s'.battery) := by
  induction fuel with
  | zero =>
    refine ⟨?_, ?_, ?_, ?_⟩
    · intro s c r s' hb h; simp [executeCommand] at h
    · intro s c r s' hb h; simp [moveCommand] at h
    · intro s r s' hb h; simp [applyBackoffStrategy] at h
    · intro cmds s r s' hb h; simp [executeStrategy] at h
  | succ f ihf =>
    obtain ⟨ihC, ihM, ihB, ihS⟩ := ihf
    refine ⟨?_, ?_, ?_, ?_⟩
    · intro s c r s' hb h
      rw [executeCommand_succ] at h
      by_cases hlt : s.battery < getBatteryConsumption c
      · simp [hlt] at h
        by_cases h1 : 1 ≤ s.battery
        · simp [h1] at h
          exact ihC s .E r s' hb h
        · simp [h1] at h
          rw [← h.2]; exact hb
      · simp [hlt] at h
        cases c
        · exact ihM s .F r s' (by simp [getBatteryConsumption] at hlt; omega) h
        · exact ihM s .B r s' (by simp [getBatteryConsumption] at hlt; omega) h
        · simp at h; rw [← h.2]
          simp [getBatteryConsumption] at hlt; simp; omega
        · simp at h; rw [← h.2]
          simp [getBatteryConsumption] at hlt; simp; omega
        · simp [getBatteryConsumption] at hlt
          simp at h
          rcases hty : getTerrainType s.terrain s.x s.y with _ | ty <;>
            simp [hty] at h
          · rw [← h.2]; simp; omega
          · by_cases hobs : ty = Cell.Obs <;> simp [hobs] at h <;>
              rw [← h.2] <;> simp <;> omega
        · simp [getBatteryConsumption] at hlt
          simp at h; rw [← h.2]; simp; omega
    · intro s c r s' hb h
      rw [moveCommand_succ] at h
      by_cases hobs : isObstacle s.terrain (getNextPosition s.x s.y s.facing c).1
          (getNextPosition s.x s.y s.facing c).2
      · simp [hobs] at h
        exact ihB s r s' (by omega) h
      · simp [hobs] at h
        rw [← h.2]; simp; omega
    · intro s r s' hb h
      rw [applyBackoffStrategy_succ] at h
      by_cases hex : backoffStrategies.length ≤ s.currentBackoffStrategy
      · simp [hex] at h
        rw [← h.2]; exact hb
      · simp [hex] at h
        exact ihS _ _ r s' (by simp; omega) h
    · intro cmds s r s' hb h
      cases cmds with
      | nil =>
        simp [executeStrategy] at h
        rw [← h.2]; exact hb
      | cons c rest =>
        rw [show executeStrategy (f + 1) (c :: rest) s =
            (match executeCommand f s c with
            | none => none
            | some (true, s1) => executeStrategy f rest s1
            | some (false, s1) => some (false, s1)) from rfl] at h
        rcases hstep : executeCommand f s c with _ | ⟨rb, s1⟩ <;>
          rw [hstep] at h
        · simp at h
        · have hb1 : 0 ≤ s1.battery := ihC s c rb s1 hb hstep
          cases rb
          · simp at h; rw [← h.2]; exact hb1
          · simp at h
            exact ihS rest s1 r s' hb1 h

/-- `executeCommands` preserves battery non-negativity into the final
result snapshot. -/
lemma executeCommands_battery (fuel : Nat) :
    ∀ (cmds : List Cmd) (s : RobotState) (res : SimResult),
      0 ≤ s.battery → executeCommands fuel s cmds = some res →
      0 ≤ res.Battery := by
  intro cmds
  induction cmds with
  | nil =>
    intro s res hb h
    simp [executeCommands, getResult] at h
    rw [← h]; exact hb
  | cons c rest ih =>
    intro s res hb h
    rw [show executeCommands fuel s (c :: rest) =
        (match executeCommand fuel s c with
        | none => none
        | some (true, s') => executeCommands fuel s' rest
        | some (false, s') => some (getResult s')) from rfl] at h
    rcases hstep : executeCommand fuel s c with _ | ⟨rb, s1⟩ <;>
      rw [hstep] at h
    · simp at h
    · have hb1 : 0 ≤ s1.battery := (battery_master fuel).1 s c rb s1 hb hstep
      cases rb
      · simp [getResult] at h
        rw [← h]; exact hb1
      · simp at h
        exact ih s1 res hb1 h

/-- The forward evaluation of `E` at battery ≥ 1. -/
lemma executeCommand_E_eq (fuel : Nat) (s : RobotState) (h1 : 1 ≤ s.battery) :
    executeCommand (fuel + 1) s .E =
      some (true, { s with battery := s.battery - 1 + 10 }) := by
  rw [executeCommand_succ]
  have h2 : ¬ s.battery < getBatteryConsumption .E := by
    simp [getBatteryConsumption]; omega
  simp [h2]

/-- Inversion of a successful empty strategy run. -/
lemma executeStrategy_nil_inv (fuel : Nat) (s s' : RobotState)
    (h : executeStrategy fuel [] s = some (true, s')) : s' = s := by
  cases fuel with
  | zero => simp [executeStrategy] at h
  | succ f => simp [executeStrategy] at h; exact h.symm

/-- Inversion of a successful strategy step. -/
lemma executeStrategy_cons_inv (fuel : Nat) (c : Cmd) (rest : List Cmd)
    (s s' : RobotState)
    (h : executeStrategy fuel (c :: rest) s = some (true, s')) :
    ∃ g s1, fuel = g + 1 ∧ executeCommand g s c = some (true, s1) ∧
      executeStrategy g rest s1 = some (true, s') := by
  cases fuel with
  | zero => simp [executeStrategy] at h
  | succ f =>
    rw [show executeStrategy (f + 1) (c :: rest) s =
        (match executeCommand f s c with
        | none => none
        | some (true, s1) => executeStrategy f rest s1
        | some (false, s1) => some (false, s1)) from rfl] at h
    rcases hstep : executeCommand f s c with _ | ⟨rb, s1⟩ <;> rw [hstep] at h
    · simp at h
    · cases rb
      · simp at h
      · exact ⟨f, s1, rfl, hstep, h⟩

/-- Once the backoff index is 0, running any further strategy commands
successfully keeps it 0, as every successful command either resets it or
preserves it. -/
lemma strategy_tail_zero (bound : Nat)
    (ihD : ∀ g, g < bound → ∀ (s : RobotState) (c : Cmd) (s' : RobotState),
      (c = .F ∨ c = .B) → executeCommand g s c = some (true, s') →
      s'.currentBackoffStrategy = 0 ∨
        s'.currentBackoffStrategy = s.currentBackoffStrategy) :
    ∀ (cmds : List Cmd) (fuel : Nat), fuel < bound → ∀ s s' : RobotState,
      s.currentBackoffStrategy = 0 →
      executeStrategy fuel cmds s = some (true, s') →
      s'.currentBackoffStrategy = 0 := by
  intro cmds
  induction cmds with
  | nil =>
    intro fuel hf s s' h0 h
    rw [executeStrategy_nil_inv fuel s s' h]; exact h0
  | cons c rest ih =>
    intro fuel hf s s' h0 h
    obtain ⟨g, s1, rfl, hstep, htail⟩ := executeStrategy_cons_inv _ c rest s s' h
    have h1 : s1.currentBackoffStrategy = 0 := by
      cases c
      · rcases ihD g (by omega) s .F s1 (Or.inl rfl) hstep with h' | h'
        · exact h'
        · rw [h', h0]
      · rcases ihD g (by omega) s .B s1 (Or.inr rfl) hstep with h' | h'
        · exact h'
        · rw [h', h0]
      · rw [executeCommand_idx_preserved g s .L true s1 (by simp) hstep, h0]
      · rw [executeCommand_idx_preserved g s .R true s1 (by simp) hstep, h0]
      · rw [executeCommand_idx_preserved g s .S true s1 (by simp) hstep, h0]
      · rw [executeCommand_idx_preserved g s .E true s1 (by simp) hstep, h0]
    exact ih g (by omega) s1 s' h1 htail

/-- Running any one of the seven strategies to success from a state with
battery ≥ 3 ends with backoff index 0: the opening `E` leaves at least 12
units, the following exact turns keep at least 3 for the strategy's first
move, whose success resets the index, and the remaining commands keep the
index at 0. -/
lemma strategy_run_zero (bound : Nat)
    (ihD : ∀ g, g < bound → ∀ (s : RobotState) (c : Cmd) (s' : RobotState),
      (c = .F ∨ c = .B) → executeCommand g s c = some (true, s') →
      s'.currentBackoffStrategy = 0 ∨
        s'.currentBackoffStrategy = s.currentBackoffStrategy)
    (ihMove : ∀ g, g < bound → ∀ (s : RobotState) (c : Cmd) (s' : RobotState),
      (c = .F ∨ c = .B) → 3 ≤ s.battery →
      executeCommand g s c = some (true, s') →
      s'.currentBackoffStrategy = 0) :
    ∀ (fuel : Nat), fuel < bound → ∀ (s s' : RobotState), 3 ≤ s.battery →
      ∀ k : Nat, k < 7 →
      executeStrategy fuel (backoffStrategies.getD k [])
        { s with currentBackoffStrategy := k + 1 } = some (true, s') →
      s'.currentBackoffStrategy = 0 := by
  intro fuel hfuel s s' h3 k hk7 h
  interval_cases k <;> simp only [backoffStrategies, List.getD] at h
  -- k = 0 : [E, R, F]
  · obtain ⟨g1, s1, rfl, hE, h⟩ := executeStrategy_cons_inv _ _ _ _ _ h
    obtain ⟨-, hs1⟩ := executeCommand_E_inv g1 _ true s1 (by simp; omega) hE
    have hb1 : s1.battery = s.battery - 1 + 10 := by rw [hs1]
    obtain ⟨g2, s2, rfl, hT, h⟩ := executeStrategy_cons_inv _ _ _ _ _ h
    obtain ⟨-, hb2, -⟩ :=
      executeCommand_turn_inv g2 s1 .R true s2 (Or.inr rfl) (by omega) hT
    obtain ⟨g3, s3, rfl, hM, h⟩ := executeStrategy_cons_inv _ _ _ _ _ h
    have h0 : s3.currentBackoffStrategy = 0 :=
      ihMove g3 (by omega) s2 .F s3 (Or.inl rfl) (by omega) hM
    rw [executeStrategy_nil_inv _ _ _ h]; exact h0
  -- k = 1 : [E, L, F]
  · obtain ⟨g1, s1, rfl, hE, h⟩ := executeStrategy_cons_inv _ _ _ _ _ h
    obtain ⟨-, hs1⟩ := executeCommand_E_inv g1 _ true s1 (by simp; omega) hE
    have hb1 : s1.battery = s.battery - 1 + 10 := by rw [hs1]
    obtain ⟨g2, s2, rfl, hT, h⟩ := executeStrategy_cons_inv _ _ _ _ _ h
    obtain ⟨-, hb2, -⟩ :=
      executeCommand_turn_inv g2 s1 .L true s2 (Or.inl rfl) (by omega) hT
    obtain ⟨g3, s3, rfl, hM, h⟩ := executeStrategy_cons_inv _ _ _ _ _ h
    have h0 : s3.currentBackoffStrategy = 0 :=
      ihMove g3 (by omega) s2 .F s3 (Or.inl rfl) (by omega) hM
    rw [executeStrategy_nil_inv _ _ _ h]; exact h0
  -- k = 2 : [E, L, L, F]
  · obtain ⟨g1, s1, rfl, hE, h⟩ := executeStrategy_cons_inv _ _ _ _ _ h
    obtain ⟨-, hs1⟩ := executeCommand_E_inv g1 _ true s1 (by simp; omega) hE
    have hb1 : s1.battery = s.battery - 1 + 10 := by rw [hs1]
    obtain ⟨g2, s2, rfl, hT, h⟩ := executeStrategy_cons_inv _ _ _ _ _ h
    obtain ⟨-, hb2, -⟩ :=
      executeCommand_turn_inv g2 s1 .L true s2 (Or.inl rfl) (by omega) hT
    obtain ⟨g3, s3, rfl, hT2, h⟩ := executeStrategy_cons_inv _ _ _ _ _ h
    obtain ⟨-, hb3, -⟩ :=
      executeCommand_turn_inv g3 s2 .L true s3 (Or.inl rfl) (by omega) hT2
    obtain ⟨g4, s4, rfl, hM, h⟩ := executeStrategy_cons_inv _ _ _ _ _ h
    have h0 : s4.currentBackoffStrategy = 0 :=
      ihMove g4 (by omega) s3 .F s4 (Or.inl rfl) (by omega) hM
    rw [executeStrategy_nil_inv _ _ _ h]; exact h0
  -- k = 3 : [E, B, R, F]
  · obtain ⟨g1, s1, rfl, hE, h⟩ := executeStrategy_cons_inv _ _ _ _ _ h
    obtain ⟨-, hs1⟩ := executeCommand_E_inv g1 _ true s1 (by simp; omega) hE
    have hb1 : s1.battery = s.battery - 1 + 10 := by rw [hs1]
    obtain ⟨g2, s2, rfl, hM, h⟩ := executeStrategy_cons_inv _ _ _ _ _ h
    have h0 : s2.currentBackoffStrategy = 0 :=
      ihMove g2 (by omega) s1 .B s2 (Or.inr rfl) (by omega) hM
    exact strategy_tail_zero bound ihD _ g2 (by omega) s2 s' h0 h
  -- k = 4 : [E, B, B, L, F]
  · obtain ⟨g1, s1, rfl, hE, h⟩ := executeStrategy_cons_inv _ _ _ _ _ h
    obtain ⟨-, hs1⟩ := executeCommand_E_inv g1 _ true s1 (by simp; omega) hE
    have hb1 : s1.battery = s.battery - 1 + 10 := by rw [hs1]
    obtain ⟨g2, s2, rfl, hM, h⟩ := executeStrategy_cons_inv _ _ _ _ _ h
    have h0 : s2.currentBackoffStrategy = 0 :=
      ihMove g2 (by omega) s1 .B s2 (Or.inr rfl) (by omega) hM
    exact strategy_tail_zero bound ihD _ g2 (by omega) s2 s' h0 h
  -- k = 5 : [E, F, F]
  · obtain ⟨g1, s1, rfl, hE, h⟩ := executeStrategy_cons_inv _ _ _ _ _ h
    obtain ⟨-, hs1⟩ := executeCommand_E_inv g1 _ true s1 (by simp; omega) hE
    have hb1 : s1.battery = s.battery - 1 + 10 := by rw [hs1]
    obtain ⟨g2, s2, rfl, hM, h⟩ := executeStrategy_cons_inv _ _ _ _ _ h
    have h0 : s2.currentBackoffStrategy = 0 :=
      ihMove g2 (by omega) s1 .F s2 (Or.inl rfl) (by omega) hM
    exact strategy_tail_zero bound ihD _ g2 (by omega) s2 s' h0 h
  -- k = 6 : [E, F, L, F, L, F]
  · obtain ⟨g1, s1, rfl, hE, h⟩ := executeStrategy_cons_inv _ _ _ _ _ h
    obtain ⟨-, hs1⟩ := executeCommand_E_inv g1 _ true s1 (by simp; omega) hE
    have hb1 : s1.battery = s.battery - 1 + 10 := by rw [hs1]
    obtain ⟨g2, s2, rfl, hM, h⟩ := executeStrategy_cons_inv _ _ _ _ _ h
    have h0 : s2.currentBackoffStrategy = 0 :=
      ihMove g2 (by omega) s1 .F s2 (Or.inl rfl) (by omega) hM
    exact strategy_tail_zero bound ihD _ g2 (by omega) s2 s' h0 h

/-- Master lemma for the backoff index: a successful move (battery ≥ 3)
resets the index to 0; a successful move at any battery either resets the
index or leaves it unchanged (ExtendPanels substitution); and a successful
backoff attempt started with battery ≥ 3 always ends with index 0. -/
lemma idx_master : ∀ fuel : Nat,
    (∀ (s : RobotState) (c : Cmd) (s' : RobotState), (c = .F ∨ c = .B) →
      3 ≤ s.battery → executeCommand fuel s c = some (true, s') →
      s'.currentBackoffStrategy = 0) ∧
    (∀ (s : RobotState) (c : Cmd) (s' : RobotState), (c = .F ∨ c = .B) →
      executeCommand fuel s c = some (true, s') →
      s'.currentBackoffStrategy = 0 ∨
        s'.currentBackoffStrategy = s.currentBackoffStrategy) ∧
    (∀ (s : RobotState) (c : Cmd) (s' : RobotState), 3 ≤ s.battery →
      moveCommand fuel s c = some (true, s') →
      s'.currentBackoffStrategy = 0) ∧
    (∀ s s' : RobotState, 3 ≤ s.battery →
      applyBackoffStrategy fuel s = some (true, s') →
      s'.currentBackoffStrategy = 0) := by
  intro fuel
  induction fuel using Nat.strong_induction_on with
  | _ fuel ih =>
    cases fuel with
    | zero =>
      refine ⟨?_, ?_, ?_, ?_⟩
      · intro s c s' _ _ h; simp [executeCommand] at h
      · intro s c s' _ h; simp [executeCommand] at h
      · intro s c s' _ h; simp [moveCommand] at h
      · intro s s' _ h; simp [applyBackoffStrategy] at h
    | succ f =>
      have ihD : ∀ g, g < f + 1 → ∀ (s : RobotState) (c : Cmd) (s' : RobotState),
          (c = .F ∨ c = .B) → executeCommand g s c = some (true, s') →
          s'.currentBackoffStrategy = 0 ∨
            s'.currentBackoffStrategy = s.currentBackoffStrategy :=
        fun g hg => (ih g hg).2.1
      have ihMove : ∀ g, g < f + 1 → ∀ (s : RobotState) (c : Cmd) (s' : RobotState),
          (c = .F ∨ c = .B) → 3 ≤ s.battery →
          executeCommand g s c = some (true, s') →
          s'.currentBackoffStrategy = 0 :=
        fun g hg => (ih g hg).1
      have hD1 : ∀ (s : RobotState) (c : Cmd) (s' : RobotState),
          (c = .F ∨ c = .B) → 3 ≤ s.battery →
          executeCommand (f + 1) s c = some (true, s') →
          s'.currentBackoffStrategy = 0 := by
        intro s c s' hc h3 h
        rw [executeCommand_succ] at h
        have hlt : ¬ s.battery < getBatteryConsumption c := by
          rcases hc with rfl | rfl <;> simp [getBatteryConsumption] <;> omega
        rcases hc with rfl | rfl
        · rw [if_neg hlt] at h
          exact (ih f (by omega)).2.2.1 s .F s' h3 h
        · rw [if_neg hlt] at h
          exact (ih f (by omega)).2.2.1 s .B s' h3 h
      refine ⟨hD1, ?_, ?_, ?_⟩
      · intro s c s' hc h
        by_cases h3 : 3 ≤ s.battery
        · exact Or.inl (hD1 s c s' hc h3 h)
        · rw [executeCommand_succ] at h
          have hlt : s.battery < getBatteryConsumption c := by
            rcases hc with rfl | rfl <;> simp [getBatteryConsumption] <;> omega
          rw [if_pos hlt] at h
          by_cases h1 : 1 ≤ s.battery
          · rw [if_pos h1] at h
            obtain ⟨-, hs⟩ := executeCommand_E_inv f s true s' h1 h
            rw [hs]; exact Or.inr rfl
          · rw [if_neg h1] at h
            simp at h
      · intro s c s' h3 h
        rw [moveCommand_succ] at h
        by_cases hobs : isObstacle s.terrain (getNextPosition s.x s.y s.facing c).1
            (getNextPosition s.x s.y s.facing c).2
        · simp [hobs] at h
          exact (ih f (by omega)).2.2.2 s s' h3 h
        · simp [hobs] at h
          rw [← h]
      · intro s s' h3 h
        rw [applyBackoffStrategy_succ] at h
        by_cases hex : backoffStrategies.length ≤ s.currentBackoffStrategy
        · simp [hex] at h
        · rw [if_neg hex] at h
          have hk7 : s.currentBackoffStrategy < 7 := by
            simp [backoffStrategies] at hex; omega
          exact strategy_run_zero (f + 1) ihD ihMove f (by omega) s s' h3
            s.currentBackoffStrategy hk7 h

/-! ## Claim theorems: robot command execution -/

/-- C1: for every robot state with battery ≥ 0 and every command applied
by `executeCommand` (at any fuel), the battery is ≥ 0 afterwards — the
fixed cost is checked against the battery before any effect, so no
applied command leaves the battery negative; the invariant also reaches
the `executeCommands` result snapshot of any run. -/
theorem battery_nonneg_invariant :
    (∀ (fuel : Nat) (s : RobotState) (c : Cmd) (r : Bool) (s' : RobotState),
      0 ≤ s.battery → executeCommand fuel s c = some (r, s') →
      0 ≤ s'.battery) ∧
    (∀ (fuel : Nat) (cmds : List Cmd) (s : RobotState) (res : SimResult),
      0 ≤ s.battery → executeCommands fuel s cmds = some res →
      0 ≤ res.Battery) :=
  ⟨fun fuel => (battery_master fuel).1,
   fun fuel => executeCommands_battery fuel⟩

/-- Witness for C1: a concrete run (Sample at battery 5 substitutes a
recharge) keeps the battery non-negative. -/
theorem battery_nonneg_invariant_witness :
    0 ≤ (initRobot [[Cell.Fe]] 5 0 0 .East).battery ∧
      0 ≤ (⟨[[Cell.Fe]], 14, 0, 0, .East, [(0, 0)], [], 0⟩ : RobotState).battery :=
  ⟨by decide,
   battery_nonneg_invariant.1 5 (initRobot [[Cell.Fe]] 5 0 0 .East) .S true
     ⟨[[Cell.Fe]], 14, 0, 0, .East, [(0, 0)], [], 0⟩ (by decide) (by decide)⟩

/-- C2: worked example A — on terrain `[[Fe,Fe,Se],[W,Si,Obs]]` with
battery 50, start (0,0) facing East, the commands `[F,S,R,F]` produce
VisitedCells `[(0,0),(1,0),(1,1)]`, samples `[Fe]`, battery 34 and final
position (1,1) facing South. -/
theorem example_A_simulation :
    executeCommands 30
        (initRobot [[.Fe, .Fe, .Se], [.W, .Si, .Obs]] 50 0 0 .East)
        [.F, .S, .R, .F] =
      some ⟨[(0, 0), (1, 0), (1, 1)], [Cell.Fe], 34, 1, 1, .South⟩ := by
  decide

/-- C3: whenever `executeCommand` is called with battery below the
command's cost, it substitutes ExtendPanels (net +9, returning `true`,
with no other state change) when battery ≥ 1, and fails leaving the state
unchanged when battery < 1; concretely, `E` from battery 5 gives 14. -/
theorem lowBattery_substitution :
    (∀ (fuel : Nat) (s : RobotState) (c : Cmd),
      s.battery < getBatteryConsumption c →
      executeCommand (fuel + 2) s c =
        some (if 1 ≤ s.battery then (true, { s with battery := s.battery + 9 })
              else (false, s))) ∧
    executeCommand 5 (initRobot [[Cell.Fe]] 5 0 0 .East) .E =
      some (true, initRobot [[Cell.Fe]] 14 0 0 .East) := by
  constructor
  · intro fuel s c hlt
    rw [executeCommand_succ]
    simp [hlt]
    by_cases h1 : 1 ≤ s.battery
    · simp [h1]
      rw [executeCommand_E_eq fuel s h1]
      have : s.battery - 1 + 10 = s.battery + 9 := by omega
      rw [this]
    · simp [h1]
  · decide

/-- Witness for C3: Sample at battery 2 (below its cost 8) substitutes a
recharge to battery 11. -/
theorem lowBattery_substitution_witness :
    (initRobot [[Cell.Fe]] 2 0 0 .East).battery < getBatteryConsumption .S ∧
    executeCommand 5 (initRobot [[Cell.Fe]] 2 0 0 .East) .S =
      some (if 1 ≤ (initRobot [[Cell.Fe]] 2 0 0 .East).battery
            then (true, { initRobot [[Cell.Fe]] 2 0 0 .East with
                          battery := (initRobot [[Cell.Fe]] 2 0 0 .East).battery + 9 })
            else (false, initRobot [[Cell.Fe]] 2 0 0 .East)) :=
  ⟨by decide,
   lowBattery_substitution.1 3 (initRobot [[Cell.Fe]] 2 0 0 .East) .S (by decide)⟩

/-- C4: a move whose destination is blocked pays nothing and delegates to
the backoff controller; with the 7 strategies exhausted the controller
fails immediately with the state untouched; otherwise it takes the current
strategy, increments the index, and runs the strategy's commands in order;
and worked example B (terrain `[[Fe,Obs,Se],[W,Si,Obs]]`, battery 50,
start (0,0) East, commands `[F]`) ends at (0,1) facing South with
battery 54. -/
theorem blocked_move_backoff :
    (∀ (fuel : Nat) (s : RobotState) (c : Cmd), (c = .F ∨ c = .B) →
      3 ≤ s.battery →
      isObstacle s.terrain (getNextPosition s.x s.y s.facing c).1
        (getNextPosition s.x s.y s.facing c).2 = true →
      executeCommand (fuel + 2) s c = applyBackoffStrategy fuel s) ∧
    (∀ (fuel : Nat) (s : RobotState), 7 ≤ s.currentBackoffStrategy →
      applyBackoffStrategy (fuel + 1) s = some (false, s)) ∧
    (∀ (fuel : Nat) (s : RobotState), s.currentBackoffStrategy < 7 →
      applyBackoffStrategy (fuel + 1) s =
        executeStrategy fuel (backoffStrategies.getD s.currentBackoffStrategy [])
          { s with currentBackoffStrategy := s.currentBackoffStrategy + 1 }) ∧
    executeCommands 60
        (initRobot [[.Fe, .Obs, .Se], [.W, .Si, .Obs]] 50 0 0 .East) [.F] =
      some ⟨[(0, 0), (0, 1)], [], 54, 0, 1, .South⟩ := by
  refine ⟨?_, ?_, ?_, by decide⟩
  · intro fuel s c hc h3 hobs
    have hlt : ¬ s.battery < getBatteryConsumption c := by
      rcases hc with rfl | rfl <;> simp [getBatteryConsumption] <;> omega
    rw [executeCommand_succ]
    rcases hc with rfl | rfl <;> simp [hlt] <;>
      rw [moveCommand_succ] <;> simp [hobs]
  · intro fuel s h
    rw [applyBackoffStrategy_succ]
    have : backoffStrategies.length ≤ s.currentBackoffStrategy := by
      simp [backoffStrategies]; omega
    simp [this]
  · intro fuel s h
    rw [applyBackoffStrategy_succ]
    have : ¬ backoffStrategies.length ≤ s.currentBackoffStrategy := by
      simp [backoffStrategies]; omega
    simp [this]

/-- C10: every backoff attempt (necessarily entered with battery ≥ 3, the
blocked move's cost) in which every sub-command succeeds ends with backoff
index 0 — each strategy's first move already resets it and the rest keep
it — so a subsequent blocked move retries from the first strategy
`[E, R, F]`. -/
theorem backoff_success_resets_index :
    (∀ (fuel : Nat) (s s' : RobotState), 3 ≤ s.battery →
      applyBackoffStrategy fuel s = some (true, s') →
      s'.currentBackoffStrategy = 0) ∧
    (∀ (fuel : Nat) (s : RobotState), s.currentBackoffStrategy = 0 →
      applyBackoffStrategy (fuel + 1) s =
        executeStrategy fuel [.E, .R, .F] { s with currentBackoffStrategy := 1 }) := by
  constructor
  · intro fuel s s' h3 h
    exact (idx_master fuel).2.2.2 s s' h3 h
  · intro fuel s h0
    rw [applyBackoffStrategy_succ]
    simp [backoffStrategies, h0]

/-- Witness for C10: the successful escape of example B ends with backoff
index 0. -/
theorem backoff_success_resets_index_witness :
    3 ≤ (initRobot [[.Fe, .Obs, .Se], [.W, .Si, .Obs]] 50 0 0 .East).battery ∧
    (⟨[[.Fe, .Obs, .Se], [.W, .Si, .Obs]], 54, 0, 1, .South,
        [(0, 0), (0, 1)], [], 0⟩ : RobotState).currentBackoffStrategy = 0 :=
  ⟨by decide,
   backoff_success_resets_index.1 40
     (initRobot [[.Fe, .Obs, .Se], [.W, .Si, .Obs]] 50 0 0 .East)
     ⟨[[.Fe, .Obs, .Se], [.W, .Si, .Obs]], 54, 0, 1, .South,
        [(0, 0), (0, 1)], [], 0⟩ (by decide) (by decide)⟩

/-- Witness for C4: the blocked forward move of example B delegates to the
backoff controller. -/
theorem blocked_move_backoff_witness :
    3 ≤ (initRobot [[.Fe, .Obs, .Se], [.W, .Si, .Obs]] 50 0 0 .East).battery ∧
    executeCommand 42 (initRobot [[.Fe, .Obs, .Se], [.W, .Si, .Obs]] 50 0 0 .East) .F =
      applyBackoffStrategy 40
        (initRobot [[.Fe, .Obs, .Se], [.W, .Si, .Obs]] 50 0 0 .East) :=
  ⟨by decide,
   blocked_move_backoff.1 40 (initRobot [[.Fe, .Obs, .Se], [.W, .Si, .Obs]] 50 0 0 .East)
     .F (Or.inl rfl) (by decide) (by decide)⟩

/-! ## Claim theorems: simulation service validation -/

/-- The validation accepts exactly the inputs that are not malformed in
the sense of the specification. -/
lemma validateInput_ok_iff (input : SimInput) :
    validateInput input = Except.ok () ↔ ¬ SpecMalformed input := by
  unfold validateInput SpecMalformed
  split_ifs with h1 h2 h3 h4 h5 h6 h7 h8 <;> simp_all

/-- A malformed input is rejected with some validation error. -/
lemma validateInput_error_of_malformed (input : SimInput)
    (h : SpecMalformed input) : ∃ e, validateInput input = Except.error e := by
  rcases he : validateInput input with e | u
  · exact ⟨e, rfl⟩
  · cases u
    exact absurd h ((validateInput_ok_iff input).mp he)

/-- Valid command symbols parse. -/
lemma parseCmd_of_valid (c : String) (h : c ∈ validCommands) :
    ∃ cmd, parseCmd c = some cmd := by
  simp [validCommands] at h
  rcases h with rfl | rfl | rfl | rfl | rfl | rfl <;> exact ⟨_, rfl⟩

/-- A list of valid command symbols parses as a whole. -/
lemma parseCommandList_of_valid :
    ∀ cmds : List String, (∀ c ∈ cmds, c ∈ validCommands) →
      ∃ l, parseCommandList cmds = some l := by
  intro cmds
  induction cmds with
  | nil => intro _; exact ⟨[], rfl⟩
  | cons c rest ih =>
    intro h
    obtain ⟨cmd, hc⟩ := parseCmd_of_valid c (h c (by simp))
    obtain ⟨l, hl⟩ := ih (fun d hd => h d (by simp [hd]))
    exact ⟨cmd :: l, by simp [parseCommandList, hc, hl]⟩

/-- Valid facing names parse. -/
lemma parseFacing_of_valid (f : String) (h : f ∈ facingNames) :
    ∃ d, parseFacing f = some d := by
  simp [facingNames] at h
  rcases h with rfl | rfl | rfl | rfl <;> exact ⟨_, rfl⟩

/-- C9: `runSimulation` raises an error exactly on malformed input
(terrain empty or with no cells or inconsistent row lengths, negative
battery, empty commands or an unknown symbol, invalid orientation, start
out of bounds or on an obstacle), and it raises before any command
executes; on well-formed input any returned value is a normal
`SimulationResult`, never an error — runs stopped by battery or backoff
exhaustion are truncated results, not exceptions. -/
theorem runSimulation_error_iff_malformed :
    (∀ (input : SimInput) (fuel : Nat), SpecMalformed input →
      ∃ e, runSimulation fuel input = some (Except.error e)) ∧
    (∀ (input : SimInput) (fuel : Nat) (r : Except String SimResult),
      ¬ SpecMalformed input → runSimulation fuel input = some r →
      ∃ res, r = Except.ok res) := by
  constructor
  · intro input fuel h
    obtain ⟨e, he⟩ := validateInput_error_of_malformed input h
    exact ⟨e, by simp [runSimulation, he]⟩
  · intro input fuel r h hr
    have hok : validateInput input = Except.ok () :=
      (validateInput_ok_iff input).mpr h
    have hcmds : ∀ c ∈ input.commands, c ∈ validCommands := by
      intro c hc
      by_contra hnot
      exact h (Or.inr (Or.inr (Or.inr (Or.inr (Or.inl ⟨c, hc, hnot⟩)))))
    have hfac : input.facing ∈ facingNames := by
      by_contra hnot
      exact h (Or.inr (Or.inr (Or.inr (Or.inr (Or.inr (Or.inl hnot))))))
    obtain ⟨l, hl⟩ := parseCommandList_of_valid input.commands hcmds
    obtain ⟨d, hd⟩ := parseFacing_of_valid input.facing hfac
    simp only [runSimulation, hok, hl, hd] at hr
    rcases hex : executeCommands fuel
        (initRobot input.terrain input.battery input.posX input.posY d) l with
      _ | res <;> rw [hex] at hr
    · simp at hr
    · simp at hr
      exact ⟨res, hr.symm⟩

/-- Witness for C9: the negative-battery input of the test suite is
malformed and rejected; a well-formed input (example A) returns a normal
result. -/
theorem runSimulation_error_iff_malformed_witness :
    SpecMalformed ⟨[[.Fe, .Fe, .Se], [.W, .Si, .Obs]], -10,
        ["F", "S", "R", "F"], 0, 0, "East"⟩ ∧
    (∃ e, runSimulation 1 ⟨[[.Fe, .Fe, .Se], [.W, .Si, .Obs]], -10,
        ["F", "S", "R", "F"], 0, 0, "East"⟩ = some (Except.error e)) :=
  ⟨by decide,
   runSimulation_error_iff_malformed.1
     ⟨[[.Fe, .Fe, .Se], [.W, .Si, .Obs]], -10,
        ["F", "S", "R", "F"], 0, 0, "East"⟩ 1 (by decide)⟩

/-! ## Association list and stable sort lemmas -/

lemma alistLookup_set_self {α : Type} (m : List (Pose × α)) (k : Pose) (v : α) :
    alistLookup (alistSet m k v) k = some v := by
  induction m with
  | nil => simp [alistSet, alistLookup]
  | cons kv rest ih =>
    obtain ⟨k', v'⟩ := kv
    by_cases h : k' = k
    · subst h; simp [alistSet, alistLookup]
    · simp [alistSet, alistLookup, h, ih]

lemma alistLookup_set_ne {α : Type} (m : List (Pose × α)) (k : Pose) (v : α)
    (k' : Pose) (h : k' ≠ k) :
    alistLookup (alistSet m k v) k' = alistLookup m k' := by
  induction m with
  | nil =>
    simp [alistSet, alistLookup]
    exact fun hh => h hh.symm
  | cons kv rest ih =>
    obtain ⟨k0, v0⟩ := kv
    by_cases h0 : k0 = k
    · subst h0
      simp [alistSet, alistLookup, Ne.symm h]
    · simp [alistSet, alistLookup, h0, ih]

lemma alistLookup_singleton {α : Type} (k p : Pose) (v : α) :
    alistLookup [(k, v)] p = if k = p then some v else none := rfl

lemma alistLookup_eq_none_of_keys {α : Type} (m : List (Pose × α)) (k : Pose)
    (h : ∀ kv ∈ m, kv.1 ≠ k) : alistLookup m k = none := by
  induction m with
  | nil => rfl
  | cons kv rest ih =>
    obtain ⟨k0, v0⟩ := kv
    simp only [alistLookup, if_neg (h (k0, v0) (by simp))]
    exact ih (fun kv hkv => h kv (by simp [hkv]))

lemma alistSet_mem {α : Type} (m : List (Pose × α)) (k : Pose) (v : α)
    (kv : Pose × α) (h : kv ∈ alistSet m k v) : kv ∈ m ∨ kv.1 = k := by
  induction m with
  | nil =>
    simp [alistSet] at h
    subst h; exact Or.inr rfl
  | cons kv0 rest ih =>
    obtain ⟨k0, v0⟩ := kv0
    by_cases h0 : k0 = k
    · subst h0
      simp [alistSet] at h
      rcases h with h | h
      · exact Or.inr (by rw [h])
      · exact Or.inl (by simp [h])
    · simp only [alistSet, if_neg h0, List.mem_cons] at h
      rcases h with h | h
      · exact Or.inl (by simp [h])
      · rcases ih h with h' | h'
        · exact Or.inl (by simp [h'])
        · exact Or.inr h'

lemma alistSet_keysPW {α : Type} (m : List (Pose × α)) (k : Pose) (v : α)
    (h : m.Pairwise (fun a b => a.1 ≠ b.1)) :
    (alistSet m k v).Pairwise (fun a b => a.1 ≠ b.1) := by
  induction m with
  | nil => simp [alistSet]
  | cons kv0 rest ih =>
    obtain ⟨k0, v0⟩ := kv0
    rcases List.pairwise_cons.mp h with ⟨hk0, hrest⟩
    by_cases h0 : k0 = k
    · subst h0
      simp only [alistSet, if_pos rfl]
      exact List.pairwise_cons.mpr ⟨hk0, hrest⟩
    · simp only [alistSet, if_neg h0]
      refine List.pairwise_cons.mpr ⟨?_, ih hrest⟩
      intro b hb
      rcases alistSet_mem rest k v b hb with h' | h'
      · exact hk0 b h'
      · rw [h']; exact h0
  -- keys of the updated list are the old keys or `k`

lemma alistDelete_mem {α : Type} (m : List (Pose × α)) (k : Pose)
    (kv : Pose × α) (h : kv ∈ alistDelete m k) : kv ∈ m := by
  induction m with
  | nil => simp [alistDelete] at h
  | cons kv0 rest ih =>
    obtain ⟨k0, v0⟩ := kv0
    by_cases h0 : k0 = k
    · subst h0
      simp [alistDelete] at h
      simp [h]
    · simp only [alistDelete, if_neg h0, List.mem_cons] at h
      rcases h with h | h
      · simp [h]
      · simp [ih h]

lemma alistDelete_keysPW {α : Type} (m : List (Pose × α)) (k : Pose)
    (h : m.Pairwise (fun a b => a.1 ≠ b.1)) :
    (alistDelete m k).Pairwise (fun a b => a.1 ≠ b.1) := by
  induction m with
  | nil => simp [alistDelete]
  | cons kv0 rest ih =>
    obtain ⟨k0, v0⟩ := kv0
    rcases List.pairwise_cons.mp h with ⟨hk0, hrest⟩
    by_cases h0 : k0 = k
    · subst h0
      simpa [alistDelete] using hrest
    · simp only [alistDelete, if_neg h0]
      refine List.pairwise_cons.mpr ⟨?_, ih hrest⟩
      intro b hb
      exact hk0 b (alistDelete_mem rest k b hb)

lemma alistLookup_delete_ne {α : Type} (m : List (Pose × α)) (k p : Pose)
    (h : p ≠ k) : alistLookup (alistDelete m k) p = alistLookup m p := by
  induction m with
  | nil => simp [alistDelete]
  | cons kv rest ih =>
    obtain ⟨k0, v0⟩ := kv
    by_cases h0 : k0 = k
    · subst h0
      simp [alistDelete, alistLookup, Ne.symm h]
    · simp only [alistDelete, if_neg h0, alistLookup]
      by_cases hp : k0 = p
      · simp [hp]
      · simp [hp, ih]

lemma alistLookup_delete_self {α : Type} (m : List (Pose × α)) (k : Pose)
    (h : m.Pairwise (fun a b => a.1 ≠ b.1)) :
    alistLookup (alistDelete m k) k = none := by
  induction m with
  | nil => simp [alistDelete, alistLookup]
  | cons kv rest ih =>
    obtain ⟨k0, v0⟩ := kv
    rcases List.pairwise_cons.mp h with ⟨hk0, hrest⟩
    by_cases h0 : k0 = k
    · subst h0
      simp only [alistDelete, if_pos rfl]
      exact alistLookup_eq_none_of_keys rest k0 (fun kv hkv => Ne.symm (hk0 kv hkv))
    · simp only [alistDelete, if_neg h0, alistLookup, if_neg h0]
      exact ih hrest

lemma insertSorted_perm {α : Type} (le : α → α → Bool) (x : α) (l : List α) :
    (insertSorted le x l).Perm (x :: l) := by
  induction l with
  | nil => simp [insertSorted]
  | cons y ys ih =>
    by_cases h : le x y
    · simp [insertSorted, h]
    · simp only [insertSorted, h, Bool.false_eq_true, if_false]
      exact (ih.cons y).trans (List.Perm.swap x y ys)

lemma stableSortBy_perm {α : Type} (le : α → α → Bool) (l : List α) :
    (stableSortBy le l).Perm l := by
  induction l with
  | nil => simp [stableSortBy]
  | cons x xs ih =>
    exact (insertSorted_perm le x (stableSortBy le xs)).trans (ih.cons x)

lemma mem_stableSortBy {α : Type} (le : α → α → Bool) (l : List α) (a : α) :
    a ∈ stableSortBy le l ↔ a ∈ l :=
  (stableSortBy_perm le l).mem_iff

lemma insertSorted_pairwise {α : Type} (le : α → α → Bool)
    (htot : ∀ a b, le a b = true ∨ le b a = true)
    (htrans : ∀ a b c, le a b = true → le b c = true → le a c = true)
    (x : α) (l : List α) (hl : l.Pairwise (fun a b => le a b = true)) :
    (insertSorted le x l).Pairwise (fun a b => le a b = true) := by
  induction l with
  | nil => simp [insertSorted]
  | cons y ys ih =>
    rcases List.pairwise_cons.mp hl with ⟨hy, hys⟩
    by_cases h : le x y
    · simp only [insertSorted, h, if_true]
      refine List.pairwise_cons.mpr ⟨?_, hl⟩
      intro b hb
      rcases List.mem_cons.mp hb with rfl | hb'
      · exact h
      · exact htrans x y b h (hy b hb')
    · simp only [insertSorted, h, Bool.false_eq_true, if_false]
      refine List.pairwise_cons.mpr ⟨?_, ih hys⟩
      intro b hb
      have hbmem : b ∈ x :: ys := (insertSorted_perm le x ys).mem_iff.mp hb
      rcases List.mem_cons.mp hbmem with rfl | hb'
      · rcases htot b y with hxy | hyx
        · exact absurd hxy h
        · exact hyx
      · exact hy b hb'

lemma stableSortBy_pairwise {α : Type} (le : α → α → Bool)
    (htot : ∀ a b, le a b = true ∨ le b a = true)
    (htrans : ∀ a b c, le a b = true → le b c = true → le a c = true)
    (l : List α) :
    (stableSortBy le l).Pairwise (fun a b => le a b = true) := by
  induction l with
  | nil => simp [stableSortBy]
  | cons x xs ih =>
    exact insertSorted_pairwise le htot htrans x (stableSortBy le xs) ih

/-! ## Geometry of the search graph -/

lemma poseAfter_cons (p : Pose) (c : Cmd) (l : List Cmd) :
    poseAfter p (c :: l) = poseAfter (applyMovePose p c) l := rfl

lemma poseAfter_append_one (p : Pose) (l : List Cmd) (c : Cmd) :
    poseAfter p (l ++ [c]) = applyMovePose (poseAfter p l) c := by
  simp [poseAfter, List.foldl_append]

/-- Every move generated by `getPossibleMoves` takes the current pose to
`applyMovePose` of its command. -/
lemma getPossibleMoves_mem (t : Terrain) (p : Pose) (mv : Pose × Cmd)
    (h : mv ∈ getPossibleMoves t p) : mv.1 = applyMovePose p mv.2 := by
  have hif : ∀ (b : Bool) (x : Pose × Cmd),
      mv ∈ (if b = true then ([] : List (Pose × Cmd)) else [x]) → mv = x := by
    intro b x hmem
    cases b
    · simpa using hmem
    · simp at hmem
  unfold getPossibleMoves at h
  rcases List.mem_append.mp h with h3 | hE
  · rcases List.mem_append.mp h3 with h2 | hB
    · rcases List.mem_append.mp h2 with hLR | hF
      · rcases List.mem_cons.mp hLR with rfl | hR
        · rfl
        · rw [List.mem_singleton.mp hR]; rfl
      · rw [hif _ _ hF]; rfl
    · rw [hif _ _ hB]; rfl
  · rw [List.mem_singleton.mp hE]; rfl

lemma manhattanDistance_self (x y : Int) : manhattanDistance x y x y = 0 := by
  simp [manhattanDistance]

lemma manhattanDistance_triangle (ax ay bx hy cx cy : Int) :
    manhattanDistance ax ay cx cy ≤
      manhattanDistance ax ay bx hy + manhattanDistance bx hy cx cy := by
  unfold manhattanDistance
  omega

/-- One command displaces the position by at most one cell. -/
lemma applyMovePose_step (p : Pose) (c : Cmd) :
    manhattanDistance p.x p.y (applyMovePose p c).x (applyMovePose p c).y ≤ 1 := by
  cases c <;> cases hf : p.facing <;>
    simp [applyMovePose, getNextPosition, manhattanDistance, getNewFacing, hf]

/-- The position reached by a command sequence is at most its length away
in Manhattan distance. -/
lemma manhattan_poseAfter_le :
    ∀ (cmds : List Cmd) (p : Pose),
      manhattanDistance p.x p.y (poseAfter p cmds).x (poseAfter p cmds).y ≤
        cmds.length := by
  intro cmds
  induction cmds with
  | nil => intro p; simp [poseAfter, manhattanDistance_self]
  | cons c rest ih =>
    intro p
    rw [poseAfter_cons]
    calc manhattanDistance p.x p.y (poseAfter (applyMovePose p c) rest).x
          (poseAfter (applyMovePose p c) rest).y
        ≤ manhattanDistance p.x p.y (applyMovePose p c).x (applyMovePose p c).y +
            manhattanDistance (applyMovePose p c).x (applyMovePose p c).y
              (poseAfter (applyMovePose p c) rest).x
              (poseAfter (applyMovePose p c) rest).y :=
          manhattanDistance_triangle _ _ _ _ _ _
      _ ≤ 1 + rest.length :=
          Nat.add_le_add (applyMovePose_step p c) (ih (applyMovePose p c))
      _ = (c :: rest).length := by simp [Nat.add_comm]

/-! ## The A* loop invariant -/

/-- `relaxMove` either leaves the state unchanged (closed neighbour,
battery-rejected neighbour, or no g-score improvement) or — only for a
non-closed neighbour — rewrites the neighbour's bookkeeping entries,
extending the current pose's command sequence by the move's command, and
at most adds the neighbour to the queue. -/
lemma relaxMove_cases (target : Int × Int) (current : Pose) (mv : Pose × Cmd)
    (st : AStarState) :
    relaxMove target current mv st = st ∨
    (mv.1 ∉ st.closed ∧
      ∃ q' cf gs fs bl,
        relaxMove target current mv st =
          ⟨q', st.closed, cf, gs, fs, bl,
            alistSet st.commandSequences mv.1
              (alistGetD st.commandSequences current [] ++ [mv.2])⟩ ∧
        (∀ p ∈ q'.elements, p ∈ st.queue.elements ∨ p = mv.1)) := by
  obtain ⟨neighbor, command⟩ := mv
  unfold relaxMove
  dsimp only
  by_cases hcl : neighbor ∈ st.closed
  · left; simp [hcl]
  · rw [if_neg hcl]
    by_cases hbat : alistGetD st.batteryLevels current 0 + commandCosts command ≤ 0
    · left; rw [if_pos hbat]
    · rw [if_neg hbat]
      rcases hg : alistLookup st.gScore neighbor with _ | g <;> dsimp only
      · -- no g-score yet: always relax, then maybe enqueue
        rw [if_pos rfl]
        by_cases hq : pqContains st.queue neighbor
        · right
          rw [if_pos hq]
          exact ⟨hcl, _, _, _, _, _, rfl, fun p hp => Or.inl hp⟩
        · right
          rw [if_neg hq]
          refine ⟨hcl, _, _, _, _, _, rfl, ?_⟩
          intro p hp
          simp only [pqEnqueue] at hp
          have : p ∈ st.queue.elements ++ [neighbor] :=
            (stableSortBy_perm _ _).mem_iff.mp hp
          rcases List.mem_append.mp this with h | h
          · exact Or.inl h
          · exact Or.inr (List.mem_singleton.mp h)
      · by_cases hlt : alistGetD st.gScore current 0 + 1 < g
        · rw [if_pos (by simp [hlt] : _ = true)]
          by_cases hq : pqContains st.queue neighbor
          · right
            rw [if_pos hq]
            exact ⟨hcl, _, _, _, _, _, rfl, fun p hp => Or.inl hp⟩
          · right
            rw [if_neg hq]
            refine ⟨hcl, _, _, _, _, _, rfl, ?_⟩
            intro p hp
            simp only [pqEnqueue] at hp
            have : p ∈ st.queue.elements ++ [neighbor] :=
              (stableSortBy_perm _ _).mem_iff.mp hp
            rcases List.mem_append.mp this with h | h
            · exact Or.inl h
            · exact Or.inr (List.mem_singleton.mp h)
        · left; rw [if_neg (by simp [hlt] : ¬ _ = true)]

/-- `relaxMove` preserves the search invariant: stored command sequences
are `E`-free and replay to their key pose, queued poses have stored
sequences, the current pose keeps its entry, and the closed set is
untouched. -/
lemma relaxMove_inv (start : Pose) (t : Terrain) (target : Int × Int)
    (current : Pose) (mv : Pose × Cmd) (st : AStarState)
    (hseq : ∀ p cmds, alistLookup st.commandSequences p = some cmds →
      Cmd.E ∉ cmds ∧ poseAfter start cmds = p)
    (hopen : ∀ p ∈ st.queue.elements, (alistLookup st.commandSequences p).isSome)
    (hcur : (alistLookup st.commandSequences current).isSome)
    (hclosed : current ∈ st.closed)
    (hmv : mv ∈ getPossibleMoves t current) :
    (∀ p cmds,
      alistLookup (relaxMove target current mv st).commandSequences p = some cmds →
      Cmd.E ∉ cmds ∧ poseAfter start cmds = p) ∧
    (∀ p ∈ (relaxMove target current mv st).queue.elements,
      (alistLookup (relaxMove target current mv st).commandSequences p).isSome) ∧
    (alistLookup (relaxMove target current mv st).commandSequences current).isSome ∧
    (relaxMove target current mv st).closed = st.closed := by
  have hpose : mv.1 = applyMovePose current mv.2 :=
    getPossibleMoves_mem t current mv hmv
  rcases relaxMove_cases target current mv st with heq | ⟨hcl, q', cf, gs, fs, bl, heq, hq⟩
  · rw [heq]
    exact ⟨hseq, hopen, hcur, rfl⟩
  · have hne : current ≠ mv.1 := fun h => hcl (h ▸ hclosed)
    have hcmd : mv.2 ≠ Cmd.E := by
      intro h
      rw [h] at hpose
      exact hcl (hpose ▸ hclosed)
    obtain ⟨curCmds, hcurEq⟩ := Option.isSome_iff_exists.mp hcur
    have hgetD : alistGetD st.commandSequences current [] = curCmds := by
      simp [alistGetD, hcurEq]
    obtain ⟨hcurE, hcurPose⟩ := hseq current curCmds hcurEq
    have hnew : ∀ p cmds,
        alistLookup (alistSet st.commandSequences mv.1
          (alistGetD st.commandSequences current [] ++ [mv.2])) p = some cmds →
        Cmd.E ∉ cmds ∧ poseAfter start cmds = p := by
      intro p cmds hp
      by_cases hpn : p = mv.1
      · subst hpn
        rw [alistLookup_set_self] at hp
        simp only [Option.some.injEq] at hp
        have hcmds : cmds = curCmds ++ [mv.2] := by
          rw [← hp, hgetD]
        subst hcmds
        constructor
        · intro hmem
          rcases List.mem_append.mp hmem with hm | hm
          · exact hcurE hm
          · exact hcmd (List.mem_singleton.mp hm).symm
        · rw [poseAfter_append_one, hcurPose, ← hpose]
      · rw [alistLookup_set_ne _ _ _ _ hpn] at hp
        exact hseq p cmds hp
    rw [heq]
    refine ⟨hnew, ?_, ?_, rfl⟩
    · intro p hp
      rcases hq p hp with hold | rfl
      · by_cases hpn : p = mv.1
        · subst hpn
          rw [alistLookup_set_self]; rfl
        · rw [alistLookup_set_ne _ _ _ _ hpn]
          exact hopen p hold
      · rw [alistLookup_set_self]; rfl
    · rw [alistLookup_set_ne _ _ _ _ hne, hcurEq]; rfl

/-- The neighbour fold of one loop iteration preserves the invariant and
leaves the closed set unchanged. -/
lemma foldRelax_inv (start : Pose) (t : Terrain) (target : Int × Int)
    (current : Pose) :
    ∀ (moves : List (Pose × Cmd)) (st : AStarState),
      (∀ mv ∈ moves, mv ∈ getPossibleMoves t current) →
      (∀ p cmds, alistLookup st.commandSequences p = some cmds →
        Cmd.E ∉ cmds ∧ poseAfter start cmds = p) →
      (∀ p ∈ st.queue.elements, (alistLookup st.commandSequences p).isSome) →
      (alistLookup st.commandSequences current).isSome →
      current ∈ st.closed →
      (∀ p cmds,
        alistLookup (moves.foldl (fun acc mv => relaxMove target current mv acc)
          st).commandSequences p = some cmds →
        Cmd.E ∉ cmds ∧ poseAfter start cmds = p) ∧
      (∀ p ∈ (moves.foldl (fun acc mv => relaxMove target current mv acc)
          st).queue.elements,
        (alistLookup (moves.foldl (fun acc mv => relaxMove target current mv acc)
          st).commandSequences p).isSome) := by
  intro moves
  induction moves with
  | nil =>
    intro st _ hseq hopen _ _
    exact ⟨hseq, hopen⟩
  | cons mv rest ih =>
    intro st hmoves hseq hopen hcur hclosed
    obtain ⟨hseq1, hopen1, hcur1, hcl1⟩ :=
      relaxMove_inv start t target current mv st hseq hopen hcur hclosed
        (hmoves mv (by simp))
    simp only [List.foldl_cons]
    exact ih (relaxMove target current mv st)
      (fun m hm => hmoves m (by simp [hm])) hseq1 hopen1 hcur1
      (hcl1 ▸ hclosed)

/-- Unfolding of one A* loop iteration. -/
lemma astarLoop_succ (fuel : Nat) (t : Terrain) (target : Int × Int) (b0 : Int)
    (st : AStarState) :
    astarLoop (fuel + 1) t target b0 st =
      (match st.queue.elements with
      | [] => some ⟨[], b0, false⟩
      | current :: restElems =>
        let st1 : AStarState :=
          { st with queue := ⟨restElems, alistDelete st.queue.priorities current⟩ }
        if current.x = target.1 ∧ current.y = target.2 then
          some ⟨alistGetD st1.commandSequences current [],
                alistGetD st1.batteryLevels current 0, true⟩
        else
          let st2 : AStarState := { st1 with closed := current :: st1.closed }
          let st3 := (getPossibleMoves t current).foldl
            (fun acc mv => relaxMove target current mv acc) st2
          astarLoop fuel t target b0 st3) := rfl

/-- Any successful A* loop run from an invariant-satisfying state returns
an `E`-free command sequence that replays geometrically from the start to
a pose at the target coordinates. -/
lemma astarLoop_success_inv (t : Terrain) (target : Int × Int) (b0 : Int)
    (start : Pose) :
    ∀ (fuel : Nat) (st : AStarState) (r : PathResult),
      (∀ p ∈ st.queue.elements, (alistLookup st.commandSequences p).isSome) →
      (∀ p cmds, alistLookup st.commandSequences p = some cmds →
        Cmd.E ∉ cmds ∧ poseAfter start cmds = p) →
      astarLoop fuel t target b0 st = some r → r.success = true →
      Cmd.E ∉ r.commands ∧ (poseAfter start r.commands).x = target.1 ∧
        (poseAfter start r.commands).y = target.2 := by
  intro fuel
  induction fuel with
  | zero =>
    intro st r _ _ h _
    simp [astarLoop] at h
  | succ f ih =>
    intro st r hopen hseq h hsucc
    rw [astarLoop_succ] at h
    rcases helems : st.queue.elements with _ | ⟨current, rest⟩ <;>
      rw [helems] at h <;> dsimp only at h
    · rw [← Option.some.injEq] at h
      simp only [Option.some.injEq] at h
      rw [← h] at hsucc
      simp at hsucc
    · by_cases htgt : current.x = target.1 ∧ current.y = target.2
      · rw [if_pos htgt] at h
        simp only [Option.some.injEq] at h
        have hcurmem : current ∈ st.queue.elements := by rw [helems]; simp
        obtain ⟨cmds, hcmds⟩ :=
          Option.isSome_iff_exists.mp (hopen current hcurmem)
        obtain ⟨hE, hpose⟩ := hseq current cmds hcmds
        have hrc : r.commands = cmds := by
          rw [← h]
          simp [alistGetD, hcmds]
        rw [hrc, hpose]
        exact ⟨hE, htgt.1, htgt.2⟩
      · rw [if_neg htgt] at h
        have hcurmem : current ∈ st.queue.elements := by rw [helems]; simp
        have hcur : (alistLookup st.commandSequences current).isSome :=
          hopen current hcurmem
        have hopen2 : ∀ p ∈ rest, (alistLookup st.commandSequences p).isSome := by
          intro p hp
          exact hopen p (by rw [helems]; simp [hp])
        obtain ⟨hseq3, hopen3⟩ :=
          foldRelax_inv start t target current (getPossibleMoves t current)
            { st with
              queue := ⟨rest, alistDelete st.queue.priorities current⟩,
              closed := current :: st.closed }
            (fun m hm => hm) hseq hopen2 hcur (by simp)
        exact ih _ r hopen3 hseq3 h hsucc

/-- Shared characterisation of any successful `findPath` result: the
command sequence never contains `E` (the self-loop target is always
already closed) and replays geometrically from the start pose to the
target coordinates. -/
lemma findPath_success_inv (fuel : Nat) (t : Terrain) (start : Pose)
    (target : Int × Int) (b : Int) (r : PathResult)
    (h : findPath fuel t start target b = some r) (hs : r.success = true) :
    Cmd.E ∉ r.commands ∧ (poseAfter start r.commands).x = target.1 ∧
      (poseAfter start r.commands).y = target.2 := by
  unfold findPath at h
  refine astarLoop_success_inv t target b start fuel _ r ?_ ?_ h hs
  · intro p hp
    simp only [pqEnqueue] at hp
    have hmem : p ∈ ([] : List Pose) ++ [start] :=
      (stableSortBy_perm _ _).mem_iff.mp hp
    simp at hmem
    subst hmem
    simp [alistLookup]
  · intro p cmds hc
    simp only [alistLookup] at hc
    split_ifs at hc with hps
    simp only [Option.some.injEq] at hc
    subst hps
    rw [← hc]
    exact ⟨by simp, rfl⟩

/-! ## Completeness of the search on obstacle-free grids -/

/-- The left turn is always among the possible moves. -/
lemma turnL_mem_getPossibleMoves (t : Terrain) (q : Pose) :
    ((⟨q.x, q.y, getNewFacing q.facing .L⟩ : Pose), Cmd.L) ∈
      getPossibleMoves t q := by
  unfold getPossibleMoves
  simp

/-- The forward move is among the possible moves when its destination is
not an obstacle. -/
lemma moveF_mem_getPossibleMoves (t : Terrain) (q : Pose)
    (h : isObstacle t (getNextPosition q.x q.y q.facing .F).1
      (getNextPosition q.x q.y q.facing .F).2 = false) :
    ((⟨(getNextPosition q.x q.y q.facing .F).1,
       (getNextPosition q.x q.y q.facing .F).2, q.facing⟩ : Pose), Cmd.F) ∈
      getPossibleMoves t q := by
  unfold getPossibleMoves
  simp [h]

/-- Facts about each generated move: it is never `S`; an `E` move is the
self-loop; turns keep the cell; moves carry a non-obstacle destination. -/
lemma getPossibleMoves_facts (t : Terrain) (p : Pose) (mv : Pose × Cmd)
    (h : mv ∈ getPossibleMoves t p) :
    mv.2 ≠ Cmd.S ∧
    (mv.2 = Cmd.E → mv.1 = p) ∧
    ((mv.2 = Cmd.L ∨ mv.2 = Cmd.R) → mv.1.x = p.x ∧ mv.1.y = p.y) ∧
    ((mv.2 = Cmd.F ∨ mv.2 = Cmd.B) → isObstacle t mv.1.x mv.1.y = false) := by
  have hif : ∀ (b : Bool) (x : Pose × Cmd),
      mv ∈ (if b = true then ([] : List (Pose × Cmd)) else [x]) →
      mv = x ∧ b = false := by
    intro b x hmem
    cases b
    · exact ⟨by simpa using hmem, rfl⟩
    · simp at hmem
  unfold getPossibleMoves at h
  rcases List.mem_append.mp h with h3 | hE
  · rcases List.mem_append.mp h3 with h2 | hB
    · rcases List.mem_append.mp h2 with hLR | hF
      · rcases List.mem_cons.mp hLR with hL | hR
        · rw [hL]
          exact ⟨by simp, by simp, fun _ => ⟨rfl, rfl⟩, by simp⟩
        · rw [List.mem_singleton.mp hR]
          exact ⟨by simp, by simp, fun _ => ⟨rfl, rfl⟩, by simp⟩
      · obtain ⟨hmv, hobs⟩ := hif _ _ hF
        rw [hmv]
        exact ⟨by simp, by simp, by simp, fun _ => hobs⟩
    · obtain ⟨hmv, hobs⟩ := hif _ _ hB
      rw [hmv]
      exact ⟨by simp, by simp, by simp, fun _ => hobs⟩
  · rw [List.mem_singleton.mp hE]
    exact ⟨by simp, fun _ => rfl, fun hc => by simp at hc, by simp⟩

/-- On a rectangular grid whose cells are all non-obstacle, `isObstacle`
is false exactly in bounds. -/
lemma obstacleFree_isObstacle_iff (t : Terrain)
    (hrect : ∀ row ∈ t, row.length = (t.headD []).length)
    (hObs : ∀ row ∈ t, ∀ c ∈ row, c ≠ Cell.Obs) (x y : Int) :
    isObstacle t x y = false ↔
      (0 ≤ x ∧ x < terrainCols t ∧ 0 ≤ y ∧ y < terrainRows t) := by
  unfold isObstacle
  by_cases hb : y < 0 ∨ terrainRows t ≤ y ∨ x < 0 ∨ terrainCols t ≤ x
  · rw [if_pos hb]
    constructor
    · intro h; exact absurd h (by simp)
    · intro hbnd
      rcases hb with h | h | h | h <;> exfalso <;> omega
  · rw [if_neg hb]
    push_neg at hb
    obtain ⟨hy0, hy1, hx0, hx1⟩ := hb
    have hylt : y.toNat < t.length := by
      unfold terrainRows at hy1; omega
    have hrow : t.get? y.toNat = some (t.get ⟨y.toNat, hylt⟩) :=
      List.get?_eq_get hylt
    have hrowmem : t.get ⟨y.toNat, hylt⟩ ∈ t := List.get_mem t y.toNat hylt
    have hxlt : x.toNat < (t.get ⟨y.toNat, hylt⟩).length := by
      rw [hrect _ hrowmem]
      unfold terrainCols at hx1; omega
    have hcellq : (t.get ⟨y.toNat, hylt⟩).get? x.toNat =
        some ((t.get ⟨y.toNat, hylt⟩).get ⟨x.toNat, hxlt⟩) :=
      List.get?_eq_get hxlt
    have hcellmem := List.get_mem (t.get ⟨y.toNat, hylt⟩) x.toNat hxlt
    have hne := hObs _ hrowmem _ hcellmem
    have hcell : cellAt t x y =
        some ((t.get ⟨y.toNat, hylt⟩).get ⟨x.toNat, hxlt⟩) := by
      unfold cellAt
      rw [if_pos ⟨by omega, by omega⟩, hrow]
      exact hcellq
    rw [hcell]
    constructor
    · intro _; exact ⟨hx0, hx1, hy0, hy1⟩
    · intro _
      simp only [List.get_eq_getElem] at hne
      simp [hne]

/-- A non-obstacle cell is in bounds (on any terrain). -/
lemma isObstacle_false_bounds (t : Terrain) (x y : Int)
    (h : isObstacle t x y = false) :
    0 ≤ x ∧ x < terrainCols t ∧ 0 ≤ y ∧ y < terrainRows t := by
  unfold isObstacle at h
  by_cases hb : y < 0 ∨ terrainRows t ≤ y ∨ x < 0 ∨ terrainCols t ≤ x
  · rw [if_pos hb] at h
    exact absurd h (by simp)
  · push_neg at hb
    obtain ⟨h1, h2, h3, h4⟩ := hb
    exact ⟨h3, h4, h1, h2⟩

lemma getNextPosition_F_East (x y : Int) :
    getNextPosition x y .East .F = (x + 1, y) := rfl

lemma getNextPosition_F_West (x y : Int) :
    getNextPosition x y .West .F = (x - 1, y) := rfl

lemma getNextPosition_F_North (x y : Int) :
    getNextPosition x y .North .F = (x, y - 1) := rfl

lemma getNextPosition_F_South (x y : Int) :
    getNextPosition x y .South .F = (x, y + 1) := rfl

/-- A set of poses closed under left turns contains, with any pose, that
pose's cell under all four orientations. -/
lemma closed_all_dirs (C : List Pose)
    (hturn : ∀ q ∈ C, (⟨q.x, q.y, getNewFacing q.facing .L⟩ : Pose) ∈ C)
    (p : Pose) (hp : p ∈ C) (d : Dir) : (⟨p.x, p.y, d⟩ : Pose) ∈ C := by
  obtain ⟨px, py, pf⟩ := p
  have h0 : (⟨px, py, pf⟩ : Pose) ∈ C := hp
  have h1 := hturn _ h0
  have h2 := hturn _ h1
  have h3 := hturn _ h2
  simp only at h1 h2 h3 ⊢
  cases pf <;> cases d <;>
    simp only [getNewFacing, dirIndex, dirCycle, List.getD] at h1 h2 h3 <;>
    simp_all

/-- On an obstacle-free rectangular grid, a nonempty set of in-bounds
poses that is closed under all possible moves and avoids the target cell
is contradictory: walking greedily toward the target stays inside the set
and strictly decreases the Manhattan distance until it hits the target. -/
lemma closed_reaches_target (t : Terrain)
    (hrect : ∀ row ∈ t, row.length = (t.headD []).length)
    (hObs : ∀ row ∈ t, ∀ c ∈ row, c ≠ Cell.Obs) (tx ty : Int)
    (htin : 0 ≤ tx ∧ tx < terrainCols t ∧ 0 ≤ ty ∧ ty < terrainRows t)
    (C : List Pose)
    (hbnd : ∀ p ∈ C, inBoundsPose t p)
    (hcov : ∀ p ∈ C, ∀ mv ∈ getPossibleMoves t p, mv.1 ∈ C)
    (hnoTgt : ∀ p ∈ C, ¬(p.x = tx ∧ p.y = ty)) :
    ∀ (d : Nat) (p : Pose), p ∈ C →
      manhattanDistance p.x p.y tx ty = d → False := by
  have hturn : ∀ q ∈ C, (⟨q.x, q.y, getNewFacing q.facing .L⟩ : Pose) ∈ C :=
    fun q hq => hcov q hq _ (turnL_mem_getPossibleMoves t q)
  have hstep : ∀ q ∈ C,
      isObstacle t (getNextPosition q.x q.y q.facing .F).1
        (getNextPosition q.x q.y q.facing .F).2 = false →
      (⟨(getNextPosition q.x q.y q.facing .F).1,
        (getNextPosition q.x q.y q.facing .F).2, q.facing⟩ : Pose) ∈ C :=
    fun q hq h => hcov q hq _ (moveF_mem_getPossibleMoves t q h)
  intro d
  induction d using Nat.strong_induction_on with
  | _ d ih =>
    intro p hp hd
    obtain ⟨hx0, hx1, hy0, hy1⟩ := hbnd p hp
    rcases lt_trichotomy p.x tx with hx | hx | hx
    · -- move East
      have hq : (⟨p.x, p.y, Dir.East⟩ : Pose) ∈ C := closed_all_dirs C hturn p hp _
      have hobs : isObstacle t (p.x + 1) p.y = false :=
        (obstacleFree_isObstacle_iff t hrect hObs _ _).mpr
          ⟨by omega, by omega, by omega, by omega⟩
      have hnext := hstep _ hq (by simpa [getNextPosition_F_East] using hobs)
      rw [getNextPosition_F_East] at hnext
      refine ih (manhattanDistance (p.x + 1) p.y tx ty) ?_ _ hnext rfl
      unfold manhattanDistance at hd ⊢
      omega
    · rcases lt_trichotomy p.y ty with hy | hy | hy
      · -- move South
        have hq : (⟨p.x, p.y, Dir.South⟩ : Pose) ∈ C := closed_all_dirs C hturn p hp _
        have hobs : isObstacle t p.x (p.y + 1) = false :=
          (obstacleFree_isObstacle_iff t hrect hObs _ _).mpr
            ⟨by omega, by omega, by omega, by omega⟩
        have hnext := hstep _ hq (by simpa [getNextPosition_F_South] using hobs)
        rw [getNextPosition_F_South] at hnext
        refine ih (manhattanDistance p.x (p.y + 1) tx ty) ?_ _ hnext rfl
        unfold manhattanDistance at hd ⊢
        omega
      · exact hnoTgt p hp ⟨hx, hy⟩
      · -- move North
        have hq : (⟨p.x, p.y, Dir.North⟩ : Pose) ∈ C := closed_all_dirs C hturn p hp _
        have hobs : isObstacle t p.x (p.y - 1) = false :=
          (obstacleFree_isObstacle_iff t hrect hObs _ _).mpr
            ⟨by omega, by omega, by omega, by omega⟩
        have hnext := hstep _ hq (by simpa [getNextPosition_F_North] using hobs)
        rw [getNextPosition_F_North] at hnext
        refine ih (manhattanDistance p.x (p.y - 1) tx ty) ?_ _ hnext rfl
        unfold manhattanDistance at hd ⊢
        omega
    · -- move West
      have hq : (⟨p.x, p.y, Dir.West⟩ : Pose) ∈ C := closed_all_dirs C hturn p hp _
      have hobs : isObstacle t (p.x - 1) p.y = false :=
        (obstacleFree_isObstacle_iff t hrect hObs _ _).mpr
          ⟨by omega, by omega, by omega, by omega⟩
      have hnext := hstep _ hq (by simpa [getNextPosition_F_West] using hobs)
      rw [getNextPosition_F_West] at hnext
      refine ih (manhattanDistance (p.x - 1) p.y tx ty) ?_ _ hnext rfl
      unfold manhattanDistance at hd ⊢
      omega

/-- Every in-bounds pose is in the finite pose universe. -/
lemma mem_allPoses (t : Terrain) (p : Pose) (h : inBoundsPose t p) :
    p ∈ allPoses t := by
  obtain ⟨px, py, pf⟩ := p
  obtain ⟨hx0, hx1, hy0, hy1⟩ := h
  simp only at hx0 hx1 hy0 hy1
  unfold allPoses
  simp only [List.mem_flatMap, List.mem_range]
  refine ⟨py.toNat, ?_, px.toNat, ?_, ?_⟩
  · unfold terrainRows at hy1; omega
  · unfold terrainCols at hx1; omega
  · have hx : ((px.toNat : Int)) = px := Int.toNat_of_nonneg hx0
    have hy : ((py.toNat : Int)) = py := Int.toNat_of_nonneg hy0
    rw [hx, hy]
    cases pf <;> simp

/-- A duplicate-free list included in another is no longer. -/
lemma nodup_length_le {l m : List Pose} (h : l.Nodup)
    (hsub : ∀ p ∈ l, p ∈ m) : l.length ≤ m.length :=
  (h.subperm hsub).length_le

/-- Full case analysis of one neighbour relaxation: the state is
unchanged when the neighbour is closed, battery-rejected, or not a
g-score improvement; otherwise every bookkeeping map is rewritten at the
neighbour's key and the queue either already holds the neighbour or gains
exactly it. -/
lemma relaxMove_cases_strong (target : Int × Int) (current : Pose)
    (mv : Pose × Cmd) (st : AStarState) :
    (mv.1 ∈ st.closed ∧ relaxMove target current mv st = st) ∨
    (mv.1 ∉ st.closed ∧
      alistGetD st.batteryLevels current 0 + commandCosts mv.2 ≤ 0 ∧
      relaxMove target current mv st = st) ∨
    (mv.1 ∉ st.closed ∧
      ¬ alistGetD st.batteryLevels current 0 + commandCosts mv.2 ≤ 0 ∧
      (∃ g, alistLookup st.gScore mv.1 = some g ∧
        ¬ alistGetD st.gScore current 0 + 1 < g) ∧
      relaxMove target current mv st = st) ∨
    (mv.1 ∉ st.closed ∧
      ¬ alistGetD st.batteryLevels current 0 + commandCosts mv.2 ≤ 0 ∧
      ∃ q',
        relaxMove target current mv st =
          { queue := q',
            closed := st.closed,
            cameFrom := alistSet st.cameFrom mv.1 (current, mv.2),
            gScore := alistSet st.gScore mv.1 (alistGetD st.gScore current 0 + 1),
            fScore := alistSet st.fScore mv.1
              (alistGetD st.gScore current 0 + 1 +
                manhattanDistance mv.1.x mv.1.y target.1 target.2),
            batteryLevels := alistSet st.batteryLevels mv.1
              (alistGetD st.batteryLevels current 0 + commandCosts mv.2),
            commandSequences := alistSet st.commandSequences mv.1
              (alistGetD st.commandSequences current [] ++ [mv.2]) } ∧
        (((alistLookup st.queue.priorities mv.1).isSome ∧ q' = st.queue) ∨
         (¬ (alistLookup st.queue.priorities mv.1).isSome = true ∧
           q'.elements.Perm (st.queue.elements ++ [mv.1]) ∧
           q'.priorities = alistSet st.queue.priorities mv.1
             (alistGetD st.gScore current 0 + 1 +
               manhattanDistance mv.1.x mv.1.y target.1 target.2)))) := by
  obtain ⟨neighbor, command⟩ := mv
  unfold relaxMove
  dsimp only
  by_cases hcl : neighbor ∈ st.closed
  · exact Or.inl ⟨hcl, by simp [hcl]⟩
  · rw [if_neg hcl]
    by_cases hbat : alistGetD st.batteryLevels current 0 + commandCosts command ≤ 0
    · exact Or.inr (Or.inl ⟨hcl, hbat, by rw [if_pos hbat]⟩)
    · rw [if_neg hbat]
      rcases hg : alistLookup st.gScore neighbor with _ | g <;> dsimp only
      · rw [if_pos rfl]
        refine Or.inr (Or.inr (Or.inr ⟨hcl, hbat, ?_⟩))
        by_cases hq : pqContains st.queue neighbor
        · rw [if_pos hq]
          exact ⟨st.queue, rfl, Or.inl ⟨hq, rfl⟩⟩
        · rw [if_neg hq]
          exact ⟨_, rfl, Or.inr ⟨hq, stableSortBy_perm _ _, rfl⟩⟩
      · by_cases hlt : alistGetD st.gScore current 0 + 1 < g
        · rw [if_pos (by simp [hlt] : _ = true)]
          refine Or.inr (Or.inr (Or.inr ⟨hcl, hbat, ?_⟩))
          by_cases hq : pqContains st.queue neighbor
          · rw [if_pos hq]
            exact ⟨st.queue, rfl, Or.inl ⟨hq, rfl⟩⟩
          · rw [if_neg hq]
            exact ⟨_, rfl, Or.inr ⟨hq, stableSortBy_perm _ _, rfl⟩⟩
        · refine Or.inr (Or.inr (Or.inl ⟨hcl, hbat, ⟨g, rfl, hlt⟩, ?_⟩))
          rw [if_neg (by simp [hlt] : ¬ _ = true)]

/-- One neighbour relaxation from a closed current pose preserves the
relaxation invariant, leaves the closed set unchanged, only grows the
queue's element set, and leaves the neighbour closed or queued (the
battery check never rejects, since the stored battery is positive and the
additive cost of every non-`E` edge is positive). -/
lemma relaxStep (t : Terrain) (target : Int × Int) (current : Pose)
    (mv : Pose × Cmd) (st : AStarState)
    (hinv : RelaxInv t st)
    (hcur : current ∈ st.closed)
    (hmv : mv ∈ getPossibleMoves t current) :
    RelaxInv t (relaxMove target current mv st) ∧
    (relaxMove target current mv st).closed = st.closed ∧
    (∀ p ∈ st.queue.elements, p ∈ (relaxMove target current mv st).queue.elements) ∧
    (mv.1 ∈ st.closed ∨ mv.1 ∈ (relaxMove target current mv st).queue.elements) := by
  rcases relaxMove_cases_strong target current mv st with
    ⟨hcl, heq⟩ | ⟨hcl, hbat, heq⟩ | ⟨hcl, hbat, ⟨g, hg, hge⟩, heq⟩ |
    ⟨hcl, hbat, q', heq, hqcase⟩
  · rw [heq]
    exact ⟨hinv, rfl, fun p hp => hp, Or.inl hcl⟩
  · exfalso
    obtain ⟨hS, hE, -, -⟩ := getPossibleMoves_facts t current mv hmv
    have hEne : mv.2 ≠ Cmd.E := fun h => hcl ((hE h) ▸ hcur)
    have hcost : 2 ≤ commandCosts mv.2 := by
      cases hc : mv.2
      · decide
      · decide
      · decide
      · decide
      · exact absurd hc hS
      · exact absurd hc hEne
    obtain ⟨-, hbs⟩ := hinv.present current (Or.inr hcur)
    obtain ⟨b, hb⟩ := Option.isSome_iff_exists.mp hbs
    have hbpos := hinv.batPos current b hb
    have hbD : alistGetD st.batteryLevels current 0 = b := by
      simp [alistGetD, hb]
    rw [hbD] at hbat
    omega
  · rw [heq]
    refine ⟨hinv, rfl, fun p hp => hp, ?_⟩
    rcases hinv.gKeys mv.1 (by rw [hg]; rfl) with h | h
    · exact Or.inr h
    · exact Or.inl h
  · -- real relaxation: the neighbour's entries are rewritten
    have hmvb : inBoundsPose t mv.1 := by
      obtain ⟨hS, hE, hLR, hFB⟩ := getPossibleMoves_facts t current mv hmv
      have hcurb : inBoundsPose t current := hinv.bounds current (Or.inr hcur)
      cases hc : mv.2
      · exact isObstacle_false_bounds t _ _ (hFB (Or.inl hc))
      · exact isObstacle_false_bounds t _ _ (hFB (Or.inr hc))
      · obtain ⟨hx, hy⟩ := hLR (Or.inl hc)
        unfold inBoundsPose at hcurb ⊢
        rw [hx, hy]
        exact hcurb
      · obtain ⟨hx, hy⟩ := hLR (Or.inr hc)
        unfold inBoundsPose at hcurb ⊢
        rw [hx, hy]
        exact hcurb
      · exact absurd hc hS
      · rw [hE hc]
        exact hcurb
    rw [heq]
    rcases hqcase with ⟨hqS, hq'⟩ | ⟨hqS, hperm, hqp⟩
    · -- neighbour already queued: the queue is untouched
      subst hq'
      have hmem : mv.1 ∈ st.queue.elements := (hinv.prioIff mv.1).mp hqS
      refine ⟨⟨hinv.nodupE, hinv.disj, hinv.prioNodup, hinv.prioIff,
        ?_, ?_, ?_, ?_⟩, rfl, fun p hp => hp, Or.inr hmem⟩
      · intro p hp
        by_cases hpm : p = mv.1
        · subst hpm
          exact ⟨by rw [alistLookup_set_self]; rfl,
                 by rw [alistLookup_set_self]; rfl⟩
        · rw [alistLookup_set_ne _ _ _ _ hpm, alistLookup_set_ne _ _ _ _ hpm]
          exact hinv.present p hp
      · intro p b hb
        by_cases hpm : p = mv.1
        · subst hpm
          rw [alistLookup_set_self] at hb
          simp only [Option.some.injEq] at hb
          omega
        · rw [alistLookup_set_ne _ _ _ _ hpm] at hb
          exact hinv.batPos p b hb
      · intro p hp
        by_cases hpm : p = mv.1
        · subst hpm
          exact Or.inl hmem
        · rw [alistLookup_set_ne _ _ _ _ hpm] at hp
          exact hinv.gKeys p hp
      · exact hinv.bounds
    · -- neighbour freshly enqueued
      have hnm : mv.1 ∉ st.queue.elements :=
        fun h => hqS ((hinv.prioIff mv.1).mpr h)
      have hmemq : mv.1 ∈ q'.elements := hperm.mem_iff.mpr (by simp)
      have helem : ∀ p : Pose,
          p ∈ q'.elements ↔ (p ∈ st.queue.elements ∨ p = mv.1) := by
        intro p
        rw [hperm.mem_iff]
        simp
      refine ⟨⟨?_, ?_, ?_, ?_, ?_, ?_, ?_, ?_⟩, rfl,
        fun p hp => (helem p).mpr (Or.inl hp), Or.inr hmemq⟩
      · refine hperm.nodup_iff.mpr (hinv.nodupE.append (by simp) ?_)
        intro a ha hb
        rw [List.mem_singleton] at hb
        subst hb
        exact hnm ha
      · intro p hp
        rcases (helem p).mp hp with h | h
        · exact hinv.disj p h
        · subst h
          exact hcl
      · rw [hqp]
        exact alistSet_keysPW _ _ _ hinv.prioNodup
      · intro p
        rw [hqp]
        by_cases hpm : p = mv.1
        · subst hpm
          rw [alistLookup_set_self]
          simp [hmemq]
        · rw [alistLookup_set_ne _ _ _ _ hpm, helem p, hinv.prioIff p]
          exact ⟨fun h => Or.inl h, fun h => h.resolve_right hpm⟩
      · intro p hp
        by_cases hpm : p = mv.1
        · subst hpm
          exact ⟨by rw [alistLookup_set_self]; rfl,
                 by rw [alistLookup_set_self]; rfl⟩
        · rw [alistLookup_set_ne _ _ _ _ hpm, alistLookup_set_ne _ _ _ _ hpm]
          refine hinv.present p ?_
          rcases hp with hq | hc
          · exact Or.inl (((helem p).mp hq).resolve_right hpm)
          · exact Or.inr hc
      · intro p b hb
        by_cases hpm : p = mv.1
        · subst hpm
          rw [alistLookup_set_self] at hb
          simp only [Option.some.injEq] at hb
          omega
        · rw [alistLookup_set_ne _ _ _ _ hpm] at hb
          exact hinv.batPos p b hb
      · intro p hp
        by_cases hpm : p = mv.1
        · subst hpm
          exact Or.inl hmemq
        · rw [alistLookup_set_ne _ _ _ _ hpm] at hp
          rcases hinv.gKeys p hp with h | h
          · exact Or.inl ((helem p).mpr (Or.inl h))
          · exact Or.inr h
      · intro p hp
        rcases hp with hq | hc
        · rcases (helem p).mp hq with h | h
          · exact hinv.bounds p (Or.inl h)
          · subst h
            exact hmvb
        · exact hinv.bounds p (Or.inr hc)

/-- The whole neighbour fold preserves the relaxation invariant, keeps
the closed set, only grows the queue's element set, and leaves every
expanded neighbour closed or queued. -/
lemma foldRelax_strong (t : Terrain) (target : Int × Int) (current : Pose) :
    ∀ (moves : List (Pose × Cmd)) (st : AStarState),
      (∀ mv ∈ moves, mv ∈ getPossibleMoves t current) →
      RelaxInv t st → current ∈ st.closed →
      RelaxInv t (moves.foldl (fun acc mv => relaxMove target current mv acc) st) ∧
      (moves.foldl (fun acc mv => relaxMove target current mv acc) st).closed =
        st.closed ∧
      (∀ p ∈ st.queue.elements,
        p ∈ (moves.foldl (fun acc mv => relaxMove target current mv acc)
          st).queue.elements) ∧
      (∀ mv ∈ moves, mv.1 ∈ st.closed ∨
        mv.1 ∈ (moves.foldl (fun acc mv => relaxMove target current mv acc)
          st).queue.elements) := by
  intro moves
  induction moves with
  | nil =>
    intro st _ hinv _
    exact ⟨hinv, rfl, fun p hp => hp, fun mv hmv => absurd hmv (by simp)⟩
  | cons mv rest ih =>
    intro st hmoves hinv hcur
    obtain ⟨hinv1, hcl1, hmono1, hcov1⟩ :=
      relaxStep t target current mv st hinv hcur (hmoves mv (by simp))
    simp only [List.foldl_cons]
    obtain ⟨hinv2, hcl2, hmono2, hcov2⟩ :=
      ih (relaxMove target current mv st)
        (fun m hm => hmoves m (by simp [hm])) hinv1 (hcl1 ▸ hcur)
    refine ⟨hinv2, by rw [hcl2, hcl1], fun p hp => hmono2 p (hmono1 p hp), ?_⟩
    intro m hm
    rcases List.mem_cons.mp hm with rfl | hm'
    · rcases hcov1 with h | h
      · exact Or.inl h
      · exact Or.inr (hmono2 _ h)
    · rcases hcov2 m hm' with h | h
      · rw [hcl1] at h
        exact Or.inl h
      · exact Or.inr h

/-- One full loop iteration (dequeue the head, close it, relax all its
neighbours) preserves the search invariant and grows the closed set by
exactly the dequeued pose. -/
lemma searchInv_step (t : Terrain) (target : Int × Int) (start : Pose)
    (st : AStarState) (current : Pose) (rest : List Pose)
    (helems : st.queue.elements = current :: rest)
    (hinv : SearchInv t target start st)
    (htgt : ¬(current.x = target.1 ∧ current.y = target.2)) :
    SearchInv t target start
      ((getPossibleMoves t current).foldl
        (fun acc mv => relaxMove target current mv acc)
        { st with
          queue := ⟨rest, alistDelete st.queue.priorities current⟩,
          closed := current :: st.closed }) ∧
    ((getPossibleMoves t current).foldl
        (fun acc mv => relaxMove target current mv acc)
        { st with
          queue := ⟨rest, alistDelete st.queue.priorities current⟩,
          closed := current :: st.closed }).closed = current :: st.closed := by
  have hR := hinv.relax
  have hcurE : current ∈ st.queue.elements := by rw [helems]; simp
  have hnodupCR : (current :: rest).Nodup := helems ▸ hR.nodupE
  have hcnr : current ∉ rest := (List.nodup_cons.mp hnodupCR).1
  have hrestN : rest.Nodup := (List.nodup_cons.mp hnodupCR).2
  have hinv2 : RelaxInv t
      { st with
        queue := ⟨rest, alistDelete st.queue.priorities current⟩,
        closed := current :: st.closed } := by
    refine ⟨hrestN, ?_, alistDelete_keysPW _ _ hR.prioNodup, ?_, ?_,
      hR.batPos, ?_, ?_⟩
    · intro p hp hmem
      rcases List.mem_cons.mp hmem with rfl | h
      · exact hcnr hp
      · exact hR.disj p (by rw [helems]; exact List.mem_cons_of_mem _ hp) h
    · intro p
      by_cases hpc : p = current
      · subst hpc
        rw [alistLookup_delete_self _ _ hR.prioNodup]
        simpa using hcnr
      · rw [alistLookup_delete_ne _ _ _ hpc, hR.prioIff p, helems]
        simp [List.mem_cons, hpc]
    · intro p hp
      refine hR.present p ?_
      rcases hp with h | h
      · exact Or.inl (by rw [helems]; exact List.mem_cons_of_mem _ h)
      · rcases List.mem_cons.mp h with rfl | h'
        · exact Or.inl hcurE
        · exact Or.inr h'
    · intro p hp
      rcases hR.gKeys p hp with h | h
      · rw [helems] at h
        rcases List.mem_cons.mp h with rfl | h'
        · exact Or.inr (List.mem_cons_self _ _)
        · exact Or.inl h'
      · exact Or.inr (List.mem_cons_of_mem _ h)
    · intro p hp
      refine hR.bounds p ?_
      rcases hp with h | h
      · exact Or.inl (by rw [helems]; exact List.mem_cons_of_mem _ h)
      · rcases List.mem_cons.mp h with rfl | h'
        · exact Or.inl hcurE
        · exact Or.inr h'
  obtain ⟨hinv3, hcl3, hmono3, hcov3⟩ :=
    foldRelax_strong t target current (getPossibleMoves t current)
      { st with
        queue := ⟨rest, alistDelete st.queue.priorities current⟩,
        closed := current :: st.closed }
      (fun mv hmv => hmv) hinv2 (List.mem_cons_self _ _)
  have hcurNC : current ∉ st.closed := hR.disj current hcurE
  refine ⟨⟨hinv3, ?_, ?_, ?_, ?_⟩, hcl3⟩
  · rw [hcl3]
    exact List.nodup_cons.mpr ⟨hcurNC, hinv.nodupC⟩
  · intro p hp mv hmv
    rw [hcl3] at hp
    rw [hcl3]
    rcases List.mem_cons.mp hp with rfl | hpc
    · rcases hcov3 mv hmv with h | h
      · exact Or.inl h
      · exact Or.inr h
    · rcases hinv.cover p hpc mv hmv with h | h
      · exact Or.inl (List.mem_cons_of_mem _ h)
      · rw [helems] at h
        rcases List.mem_cons.mp h with he | he
        · exact Or.inl (by rw [he]; exact List.mem_cons_self _ _)
        · exact Or.inr (hmono3 _ he)
  · intro p hp
    rw [hcl3] at hp
    rcases List.mem_cons.mp hp with rfl | h
    · exact htgt
    · exact hinv.noTgt p h
  · rcases hinv.startIn with h | h
    · rw [helems] at h
      rcases List.mem_cons.mp h with rfl | h'
      · exact Or.inr (by rw [hcl3]; exact List.mem_cons_self _ _)
      · exact Or.inl (hmono3 _ h')
    · exact Or.inr (by rw [hcl3]; exact List.mem_cons_of_mem _ h)

/-- Completeness of the A* loop on obstacle-free rectangular grids: from
any state satisfying the search invariant, with fuel beyond the number of
poses not yet closed, the loop returns `success = true` (the frontier can
never empty, since the closed set would then be move-closed, in bounds,
and target-free — impossible by `closed_reaches_target`). -/
lemma astar_complete (t : Terrain) (target : Int × Int) (start : Pose)
    (b0 : Int)
    (hrect : ∀ row ∈ t, row.length = (t.headD []).length)
    (hObs : ∀ row ∈ t, ∀ c ∈ row, c ≠ Cell.Obs)
    (htin : 0 ≤ target.1 ∧ target.1 < terrainCols t ∧
      0 ≤ target.2 ∧ target.2 < terrainRows t) :
    ∀ (fuel : Nat) (st : AStarState),
      SearchInv t target start st →
      (allPoses t).length + 1 - st.closed.length ≤ fuel →
      ∃ r, astarLoop fuel t target b0 st = some r ∧ r.success = true := by
  intro fuel
  induction fuel with
  | zero =>
    intro st hinv hfuel
    exfalso
    have hle := nodup_length_le hinv.nodupC
      (fun p hp => mem_allPoses t p (hinv.relax.bounds p (Or.inr hp)))
    omega
  | succ f ih =>
    intro st hinv hfuel
    rcases helems : st.queue.elements with _ | ⟨current, rest⟩
    · exfalso
      have hstart : start ∈ st.closed := by
        rcases hinv.startIn with h | h
        · rw [helems] at h
          simp at h
        · exact h
      have hcov : ∀ p ∈ st.closed, ∀ mv ∈ getPossibleMoves t p,
          mv.1 ∈ st.closed := by
        intro p hp mv hmv
        rcases hinv.cover p hp mv hmv with h | h
        · exact h
        · rw [helems] at h
          simp at h
      exact closed_reaches_target t hrect hObs target.1 target.2 htin
        st.closed (fun p hp => hinv.relax.bounds p (Or.inr hp)) hcov
        hinv.noTgt (manhattanDistance start.x start.y target.1 target.2)
        start hstart rfl
    · rw [astarLoop_succ, helems]
      dsimp only
      by_cases htgt : current.x = target.1 ∧ current.y = target.2
      · rw [if_pos htgt]
        exact ⟨_, rfl, rfl⟩
      · rw [if_neg htgt]
        obtain ⟨hinv3, hcl3⟩ :=
          searchInv_step t target start st current rest helems hinv htgt
        refine ih _ hinv3 ?_
        rw [hcl3]
        have hle := nodup_length_le hinv.nodupC
          (fun p hp => mem_allPoses t p (hinv.relax.bounds p (Or.inr hp)))
        simp only [List.length_cons]
        omega

/-! ## Claim theorems: pathfinding -/

/-- C5 (code bug): `findPath` ADDS the cost table to the accumulated
battery (`newBattery = currentBattery + batteryCost` over `{F:3, B:3,
L:2, R:2, S:8, E:-9}`), so a `success:true` result does not keep the real
battery positive: from battery 4, five forward moves are accepted (the
search's accumulated battery reaches 19), yet replaying them under the
spec's deltas (Move −3) drives the battery to 0 and below after the
second move. -/
theorem findPath_battery_accounting_bug :
    findPath 80 [[.Fe, .Fe, .Fe, .Fe, .Fe, .Fe]] ⟨0, 0, .East⟩ (5, 0) 4 =
      some ⟨[.F, .F, .F, .F, .F], 19, true⟩ ∧
    replayBattery 4 [.F, .F, .F, .F, .F] = none :=
  ⟨by decide, by decide⟩

/-- Counterexample for C6: on the 1×2 obstacle-free grid with battery 3,
the purely geometric path `[F]` is infeasible under the spec's deltas
while recharging first (`[E, F]`) stays positive — yet `findPath` returns
`success = true` with commands `[F]` and no `E` at all (its battery check
adds the cost, and the `E` self-loop is always skipped as closed). -/
theorem extendPanels_edge_unused_cex :
    replayBattery 3 [Cmd.F] = none ∧
    replayBattery 3 [Cmd.E, Cmd.F] = some 9 ∧
    findPath 50 [[.Fe, .Fe]] ⟨0, 0, .East⟩ (1, 0) 3 =
      some ⟨[Cmd.F], 6, true⟩ ∧
    Cmd.E ∉ [Cmd.F] :=
  ⟨by decide, by decide, by decide, by decide⟩

/-- C6 (amended): `getPossibleMoves` does generate the ExtendPanels
self-loop at every node, but the loop closes the current node before
expanding it, so the self-loop's target is always already closed and is
skipped — no successful `findPath` result ever contains `E`. -/
theorem findPath_success_no_extendPanels (fuel : Nat) (t : Terrain)
    (start : Pose) (target : Int × Int) (b : Int) (r : PathResult)
    (h : findPath fuel t start target b = some r) (hs : r.success = true) :
    Cmd.E ∉ r.commands :=
  (findPath_success_inv fuel t start target b r h hs).1

/-- Witness for the amended C6 on a concrete successful search. -/
theorem findPath_success_no_extendPanels_witness :
    findPath 50 [[.Fe], [.Fe]] ⟨0, 0, .East⟩ (0, 1) 100 =
      some ⟨[.L, .B], 105, true⟩ ∧
    Cmd.E ∉ (⟨[.L, .B], 105, true⟩ : PathResult).commands :=
  ⟨by decide,
   findPath_success_no_extendPanels 50 [[.Fe], [.Fe]] ⟨0, 0, .East⟩ (0, 1) 100
     ⟨[.L, .B], 105, true⟩ (by decide) rfl⟩

/-- Counterexample for C7: on the obstacle-free 2×1 grid with ample
battery, the target one cell south of a start facing East needs a turn,
so `findPath` returns 2 commands while the Manhattan distance is 1. -/
theorem findPath_manhattan_length_cex :
    findPath 50 [[.Fe], [.Fe]] ⟨0, 0, .East⟩ (0, 1) 100 =
      some ⟨[.L, .B], 105, true⟩ ∧
    [Cmd.L, Cmd.B].length ≠ manhattanDistance 0 0 0 1 :=
  ⟨by decide, by decide⟩

/-- C7 (amended): on an obstacle-free rectangular grid with an in-bounds
start pose and target, a positive initial battery and fuel beyond the
number of poses, `findPath` returns `success = true` (second conjunct),
and every `success = true` result — on any input — has a command
sequence of length at least the Manhattan distance between start and
target (first conjunct); equality fails when turning is needed, since
turns cost a command without changing the position. -/
theorem findPath_obstacleFree_min_length :
    (∀ (fuel : Nat) (t : Terrain) (start : Pose) (target : Int × Int)
      (b : Int) (r : PathResult),
      findPath fuel t start target b = some r → r.success = true →
      manhattanDistance start.x start.y target.1 target.2 ≤
        r.commands.length) ∧
    (∀ (fuel : Nat) (t : Terrain) (start : Pose) (target : Int × Int)
      (b0 : Int),
      (∀ row ∈ t, row.length = (t.headD []).length) →
      (∀ row ∈ t, ∀ c ∈ row, c ≠ Cell.Obs) →
      inBoundsPose t start →
      (0 ≤ target.1 ∧ target.1 < terrainCols t ∧
        0 ≤ target.2 ∧ target.2 < terrainRows t) →
      0 < b0 →
      (allPoses t).length + 1 ≤ fuel →
      ∃ r, findPath fuel t start target b0 = some r ∧ r.success = true ∧
        manhattanDistance start.x start.y target.1 target.2 ≤
          r.commands.length) := by
  have h1 : ∀ (fuel : Nat) (t : Terrain) (start : Pose) (target : Int × Int)
      (b : Int) (r : PathResult),
      findPath fuel t start target b = some r → r.success = true →
      manhattanDistance start.x start.y target.1 target.2 ≤
        r.commands.length := by
    intro fuel t start target b r h hs
    obtain ⟨-, hx, hy⟩ := findPath_success_inv fuel t start target b r h hs
    have hle := manhattan_poseAfter_le r.commands start
    rw [hx, hy] at hle
    exact hle
  refine ⟨h1, ?_⟩
  intro fuel t start target b0 hrect hObs hstart htin hb hfuel
  have hqe : (pqEnqueue ⟨[], []⟩ start
      (manhattanDistance start.x start.y target.1 target.2)).elements =
      [start] := rfl
  have hqp : (pqEnqueue ⟨[], []⟩ start
      (manhattanDistance start.x start.y target.1 target.2)).priorities =
      [(start, manhattanDistance start.x start.y target.1 target.2)] := rfl
  have hinv0 : SearchInv t target start
      { queue := pqEnqueue ⟨[], []⟩ start
          (manhattanDistance start.x start.y target.1 target.2),
        closed := [],
        cameFrom := [],
        gScore := [(start, 0)],
        fScore := [(start, manhattanDistance start.x start.y target.1 target.2)],
        batteryLevels := [(start, b0)],
        commandSequences := [(start, [])] } := by
    refine ⟨⟨?_, ?_, ?_, ?_, ?_, ?_, ?_, ?_⟩, ?_, ?_, ?_, ?_⟩
    · rw [hqe]
      simp
    · rw [hqe]
      intro p hp hc
      simp at hc
    · rw [hqp]
      simp
    · intro p
      rw [hqe, hqp, alistLookup_singleton]
      by_cases hps : start = p
      · subst hps
        simp
      · rw [if_neg hps]
        constructor
        · intro h
          simp at h
        · intro h
          exact absurd (List.mem_singleton.mp h).symm hps
    · intro p hp
      rw [hqe] at hp
      have hp' : p = start := by
        rcases hp with h | h
        · simpa using h
        · simp at h
      subst hp'
      rw [alistLookup_singleton, alistLookup_singleton, if_pos rfl, if_pos rfl]
      exact ⟨rfl, rfl⟩
    · intro p b hbp
      rw [alistLookup_singleton] at hbp
      by_cases hsp : start = p
      · rw [if_pos hsp] at hbp
        simp only [Option.some.injEq] at hbp
        omega
      · rw [if_neg hsp] at hbp
        exact absurd hbp (by simp)
    · intro p hp
      rw [hqe]
      rw [alistLookup_singleton] at hp
      by_cases hsp : start = p
      · subst hsp
        simp
      · rw [if_neg hsp] at hp
        simp at hp
    · intro p hp
      rw [hqe] at hp
      have hp' : p = start := by
        rcases hp with h | h
        · simpa using h
        · simp at h
      subst hp'
      exact hstart
    · simp
    · intro p hp
      simp at hp
    · intro p hp
      simp at hp
    · rw [hqe]
      exact Or.inl (by simp)
  obtain ⟨r, hr, hrs⟩ := astar_complete t target start b0 hrect hObs htin
    fuel _ hinv0 (by simpa using hfuel)
  have hfp : findPath fuel t start target b0 = some r := hr
  exact ⟨r, hfp, hrs, h1 fuel t start target b0 r hfp hrs⟩

/-- Witness for the amended C7: a concrete obstacle-free grid on which
the completeness conjunct applies and yields a successful result whose
length dominates the Manhattan distance. -/
theorem findPath_obstacleFree_min_length_witness :
    ∃ r, findPath 17 [[.Fe], [.Fe]] ⟨0, 0, .East⟩ (0, 1) 100 = some r ∧
      r.success = true ∧
      manhattanDistance 0 0 0 1 ≤ r.commands.length :=
  findPath_obstacleFree_min_length.2 17 [[.Fe], [.Fe]] ⟨0, 0, .East⟩ (0, 1)
    100 (by decide) (by decide) (by unfold inBoundsPose; decide) (by decide)
    (by decide) (by decide)

/-! ## Claim theorems: mission planner -/

/-- C8: `generateMissionPlan` sorts the distinct non-obstacle terrain
types once, in ascending order of the minimal Manhattan distance from the
INITIAL start pose to an occurrence of the type, and then processes that
fixed list — the ordering is not recomputed as the simulated position
advances.  The sorted list is an ordered permutation of the targets; the
plan is by definition the fold over it; on the demonstration terrain
`[[W,Fe,Fe,Fe,Fe,Se,Fe,Si]]` with start x=3 the once-computed order is
`[Fe, Se, W, Si]`, even though from the pose reached after the `Se` leg
(x=5) the type `Si` is strictly nearer than `W`. -/
theorem missionPlan_target_order :
    (∀ (t : Terrain) (start : Pose),
      (sortTargets t start).Pairwise
        (fun a b => minDistTo start a.locations ≤ minDistTo start b.locations) ∧
      (sortTargets t start).Perm (mkTargets t)) ∧
    (∀ (fuel : Nat) (t : Terrain) (start : Pose) (b0 : Int),
      generateMissionPlan fuel t start b0 =
        missionLoop fuel t (sortTargets t start) start b0 []) ∧
    ((sortTargets [[.W, .Fe, .Fe, .Fe, .Fe, .Se, .Fe, .Si]] ⟨3, 0, .East⟩).map
        (fun tg => tg.type) =
      [some Cell.Fe, some Cell.Se, some Cell.W, some Cell.Si]) ∧
    (minDistTo ⟨5, 0, .East⟩
        (findTerrainLocations [[.W, .Fe, .Fe, .Fe, .Fe, .Se, .Fe, .Si]]
          (some Cell.Si)) <
      minDistTo ⟨5, 0, .East⟩
        (findTerrainLocations [[.W, .Fe, .Fe, .Fe, .Fe, .Se, .Fe, .Si]]
          (some Cell.W))) := by
  refine ⟨?_, fun fuel t start b0 => rfl, by decide, by decide⟩
  intro t start
  constructor
  · have htot : ∀ a b : MPTarget,
        decide (minDistTo start a.locations ≤ minDistTo start b.locations) = true ∨
        decide (minDistTo start b.locations ≤ minDistTo start a.locations) = true := by
      intro a b
      rcases Nat.le_total (minDistTo start a.locations)
          (minDistTo start b.locations) with h | h
      · left; simpa using h
      · right; simpa using h
    have htrans : ∀ a b c : MPTarget,
        decide (minDistTo start a.locations ≤ minDistTo start b.locations) = true →
        decide (minDistTo start b.locations ≤ minDistTo start c.locations) = true →
        decide (minDistTo start a.locations ≤ minDistTo start c.locations) = true := by
      intro a b c hab hbc
      simp only [decide_eq_true_eq] at hab hbc ⊢
      omega
    have h := stableSortBy_pairwise
      (fun a b => decide (minDistTo start a.locations ≤ minDistTo start b.locations))
      htot htrans (mkTargets t)
    exact h.imp (fun hab => by simpa using hab)
  · exact stableSortBy_perm _ _

end MarsRobot
